import Mathlib

/-!
Verification development for the workflow graph engine of the
ETL-Workflow-Creator repository (React/TypeScript client).

The definitions below are a shallow embedding of
`src/client/src/engine/WorkflowEngine.ts` and
`src/client/src/utils/dataParser.ts`.

Modelling conventions:
* JavaScript numbers are modelled as rationals (ℚ).  All arithmetic the
  engine performs on data values (min, max, subtraction, division) is exact
  over ℚ; binary floating-point rounding is abstracted away.
* JavaScript strings are Lean `String`s; `undefined` fields of the dynamic
  `transformData` payloads are modelled as the empty string, which is
  equivalent for every use site because the engine only tests them for
  truthiness (and both `undefined` and `""` are falsy).
* A JavaScript object used as a record is modelled as an association list
  with JS-object key semantics: assignment updates the existing entry in
  place (keeping key order) or appends a fresh key; lookup takes the first
  (unique) entry.
* Platform functions that are not part of the repository
  (`JSON.parse`, `JSON.stringify`, `DOMParser`-based XML parsing, and
  `String.prototype.replace` with a user-supplied regular expression) are
  abstracted as a parameter record `JSPrims`; every theorem quantifying over
  the engine holds for all instantiations of these primitives.
* In-place mutation of row objects (the pattern
  `data.map(row => { row[c] = v; return row; })`) is made observable through
  a per-row result marker `RowUpd`: `inPlace` records that the returned row
  is the very object received (so the caller's table now shows the new
  content), `fresh` records that a new object (`{...row}`) was returned and
  the received row is untouched.
-/

namespace ETL

/-- A JavaScript data value stored in a record: a string, a (finite) number
modelled as a rational, or `null`. -/
inductive Value where
  | str (s : String)
  | num (q : ℚ)
  | null
deriving DecidableEq, Repr

/-- A record (one row of tabular data): a JS object modelled as an
association list from column name to value, in key-insertion order. -/
abbrev Row := List (String × Value)

/-- The tabular data passed between nodes: an ordered list of records. -/
abbrev RowTable := List Row

/-- JS object property read `obj[k]`: first entry with the key (keys are
unique in every row the engine builds); `none` models `undefined`. -/
def jsGet {α : Type} (l : List (String × α)) (k : String) : Option α :=
  match l with
  | [] => none
  | (k₀, v₀) :: rest => if k₀ = k then some v₀ else jsGet rest k

/-- JS object property write `obj[k] = v`: updates the existing entry in
place (keeping its position) or appends the key at the end. -/
def jsSet {α : Type} (l : List (String × α)) (k : String) (v : α) :
    List (String × α) :=
  match l with
  | [] => [(k, v)]
  | (k₀, v₀) :: rest =>
      if k₀ = k then (k₀, v) :: rest else (k₀, v₀) :: jsSet rest k v

/-- JS `delete obj[k]`: removes every entry with the key. -/
def jsDel {α : Type} (l : List (String × α)) (k : String) :
    List (String × α) :=
  l.filter (fun kv => kv.1 ≠ k)

/-- JS `obj.hasOwnProperty(k)`. -/
def jsHas {α : Type} (l : List (String × α)) (k : String) : Bool :=
  (jsGet l k).isSome

/-- The characters the engine's string operations treat as whitespace
(the ASCII part of the JS `\s` class / `String.prototype.trim`). -/
def jsIsWhitespace (c : Char) : Bool :=
  c = ' ' ∨ c = '\t' ∨ c = '\n' ∨ c = '\r' ∨
    c = Char.ofNat 11 ∨ c = Char.ofNat 12

/-- JS `String.prototype.trim`: strip leading and trailing whitespace. -/
def jsTrim (s : String) : String :=
  String.mk
    (((s.toList.dropWhile jsIsWhitespace).reverse.dropWhile
      jsIsWhitespace).reverse)

/-- Numeric value of a list of decimal digit characters. -/
def digitsToNat (ds : List Char) : Nat :=
  ds.foldl (fun n c => 10 * n + (c.toNat - '0'.toNat)) 0

/-- Decimal digits of the exponent part of a JS number literal, if the
input starts with a well-formed exponent (`e`/`E`, optional sign, at least
one digit).  `parseFloat` stops before a malformed exponent. -/
def parseExponent (cs : List Char) : Option (Bool × List Char) :=
  match cs with
  | 'e' :: rest | 'E' :: rest =>
      match rest with
      | '-' :: ds => if (ds.headD 'x').isDigit
          then some (true, ds.takeWhile Char.isDigit) else none
      | '+' :: ds => if (ds.headD 'x').isDigit
          then some (false, ds.takeWhile Char.isDigit) else none
      | ds => if (ds.headD 'x').isDigit
          then some (false, ds.takeWhile Char.isDigit) else none
  | _ => none

/-- Core of `parseFloat` after sign handling: longest prefix of the form
`digits [. digits] [exponent]`, requiring at least one digit before or
after the decimal point.  Returns `none` (NaN) when no digit is found. -/
def parseFloatCore (cs : List Char) : Option ℚ :=
  let intDs := cs.takeWhile Char.isDigit
  let rest := cs.dropWhile Char.isDigit
  let frac :=
    match rest with
    | '.' :: fs => (fs.takeWhile Char.isDigit, fs.dropWhile Char.isDigit)
    | _ => ([], rest)
  if intDs = [] ∧ frac.1 = [] then none
  else
    let mantissa : ℚ :=
      (digitsToNat intDs : ℚ) +
        (digitsToNat frac.1 : ℚ) / ((10 : ℚ) ^ frac.1.length)
    match parseExponent frac.2 with
    | some (negExp, eds) =>
        let e := digitsToNat eds
        some (if negExp then mantissa / (10 : ℚ) ^ e
              else mantissa * (10 : ℚ) ^ e)
    | none => some mantissa

/-- JS `parseFloat` on a string: skip leading whitespace, optional sign,
then parse the longest numeric prefix; `none` models `NaN`.
(The special literal `Infinity` is outside the model; no value the claims
touch produces it.) -/
def jsParseFloat (s : String) : Option ℚ :=
  match s.toList.dropWhile jsIsWhitespace with
  | '-' :: cs => (parseFloatCore cs).map (fun q => -q)
  | '+' :: cs => parseFloatCore cs
  | cs => parseFloatCore cs

/-- Rendering of a JS number as a string.  Exact for integers; for
non-integral rationals whose denominator divides a power of ten (the only
values the engine's arithmetic produces from decimal input) it prints the
shortest fixed-decimal form, mirroring JS. -/
def jsNumToString (q : ℚ) : String :=
  if q.den = 1 then toString q.num
  else
    let k := (List.range 40).find? (fun k => (q * (10 : ℚ) ^ k).den = 1)
    match k with
    | some k =>
        let n := (q * (10 : ℚ) ^ k).num
        let digits := toString n.natAbs
        let digits := (List.replicate (k + 1 - digits.length) '0').asString
          ++ digits
        let intPart := digits.dropRight k
        let fracPart := (digits.takeRight k).dropRightWhile (fun c => c = '0')
        (if q < 0 then "-" else "") ++ intPart ++
          (if fracPart = "" then "" else "." ++ fracPart)
    | none => toString q

/-- JS `String(value)` string conversion. -/
def jsValueToString (v : Value) : String :=
  match v with
  | .str s => s
  | .num q => jsNumToString q
  | .null => "null"

/-- JS `parseFloat(value)` on an arbitrary value: a number converts to its
own numeric value (via its string form), a string is parsed, `null`
stringifies to `"null"` and yields NaN. -/
def parseFloatV (v : Value) : Option ℚ :=
  match v with
  | .str s => jsParseFloat s
  | .num q => some q
  | .null => none

/-- JS `parseInt(s, 10)`: leading whitespace, optional sign, longest digit
prefix; `none` models `NaN`. -/
def jsParseInt (s : String) : Option Int :=
  let core : List Char → Option Nat := fun cs =>
    let ds := cs.takeWhile Char.isDigit
    if ds = [] then none else some (digitsToNat ds)
  match s.toList.dropWhile jsIsWhitespace with
  | '-' :: cs => (core cs).map (fun n => -(n : Int))
  | '+' :: cs => (core cs).map (fun n => (n : Int))
  | cs => (core cs).map (fun n => (n : Int))

/-- JS `Number(value)` used by CONVERT_TO_NUMERIC's fallback branch:
`Number(null)` is `0` (the other branches are dispatched before it). -/
def jsNumber (v : Value) : ℚ :=
  match v with
  | .str s => (jsParseFloat s).getD 0
  | .num q => q
  | .null => 0

/-- Rounding to `d` decimal places (value of `Number(x.toFixed(d))`),
idealised over ℚ as round-to-nearest. -/
def jsRoundTo (q : ℚ) (d : Nat) : ℚ :=
  (round (q * (10 : ℚ) ^ d) : ℤ) / (10 : ℚ) ^ d

/-- Fixed-decimal rendering `x.toFixed(d)`, idealised over ℚ. -/
def jsToFixed (q : ℚ) (d : Nat) : String :=
  let n : ℤ := round (q * (10 : ℚ) ^ d)
  let digits := toString n.natAbs
  let digits := (List.replicate (d + 1 - digits.length) '0').asString
    ++ digits
  (if n < 0 then "-" else "") ++ digits.dropRight d ++
    (if d = 0 then "" else "." ++ digits.takeRight d)

/-!
## Transform parameters and the in-place-mutation marker

`transformData` is the dynamic payload of a transform node; the engine
destructures `columnName`, `condition` and `targetValue` from it and tests
them only for truthiness, so absent fields are modelled as `""`.
-/

/-- The fields of a node's dynamic `data` payload that the engine reads.
Input and output nodes use `file`; transform nodes use the rest. -/
structure IFile where
  filename : String
  fileContent : String
  fileFormat : String
deriving DecidableEq, Repr

/-- Dynamic node payload (`node.data`).  Fields a given node kind does not
use keep their defaults. -/
structure NodeData where
  file : Option IFile := none
  transformType : String := ""
  columnName : String := ""
  condition : String := ""
  targetValue : String := ""
deriving DecidableEq, Repr

/-- Result of the per-row function inside a transform's `data.map(...)`:
`inPlace r` means the callback returned the row object it received, with
contents now `r` (mutation visible to the caller's table); `fresh r` means
it returned a new object `{...row, ...}` with contents `r`, leaving the
received row untouched. -/
inductive RowUpd where
  | inPlace (r : Row)
  | fresh (r : Row)
deriving DecidableEq, Repr

/-- Contents of the row object a per-row callback returns. -/
def RowUpd.row : RowUpd → Row
  | .inPlace r => r
  | .fresh r => r

/-- The table a mapping transform returns: contents of each returned row. -/
def applyRows (step : Row → RowUpd) (data : RowTable) : RowTable :=
  data.map (fun r => (step r).row)

/-- The caller's input table after a mapping transform ran: rows returned
`inPlace` were mutated, rows returned `fresh` are untouched. -/
def postRows (step : Row → RowUpd) (data : RowTable) : RowTable :=
  data.map (fun r => match step r with | .inPlace r' => r' | .fresh _ => r)

/-!
## Transform Library (`applyXxxTransformation` methods of `WorkflowEngine`)

Each transform `X` is modelled by the table it returns
(`applyXTransformation`, tracing the source method) and, where it differs,
by the state its input table is left in (`applyXPost`), derived from the
same per-row step via `postRows`.
-/

/-- Row predicate of FILTER (the callback of `data.filter(...)`). -/
def filterPred (columnName condition : String) (row : Row) : Bool :=
  match jsGet row columnName with
  | none => false
  | some value =>
      if condition.toList.contains '>' then
        let parts := condition.splitOn ">"
        let col := jsTrim (parts.headD "")
        let threshold := jsParseFloat (jsTrim (parts.getD 1 ""))
        if col = columnName then
          match parseFloatV value, threshold with
          | some a, some b => decide (a > b)
          | _, _ => false
        else true
      else if condition.toList.contains '<' then
        let parts := condition.splitOn "<"
        let col := jsTrim (parts.headD "")
        let threshold := jsParseFloat (jsTrim (parts.getD 1 ""))
        if col = columnName then
          match parseFloatV value, threshold with
          | some a, some b => decide (a < b)
          | _, _ => false
        else true
      else if (condition.splitOn "==").length ≥ 2 then
        let parts := condition.splitOn "=="
        let col := jsTrim (parts.headD "")
        let expected :=
          String.mk ((jsTrim (parts.getD 1 "")).toList.filter
            (fun c => c ≠ '\'' ∧ c ≠ '"'))
        if col = columnName then
          decide (jsValueToString value = expected)
        else true
      else true

/-- FILTER: keep rows whose column value satisfies the parsed comparison;
`row[c] === undefined` rows are dropped, and a condition whose column part
does not equal `columnName` keeps every defined row.  The callback never
mutates, and `Array.prototype.filter` returns a new array of the same row
objects, so the input table is untouched. -/
def applyFilterTransformation (data : RowTable) (td : NodeData) : RowTable :=
  if td.columnName = "" ∨ td.condition = "" then data
  else data.filter (filterPred td.columnName td.condition)

/-- Per-row step of DROP_COLUMN: `const newRow = {...row}; delete newRow[c]`. -/
def dropColumnStep (c : String) (row : Row) : RowUpd :=
  .fresh (jsDel row c)

/-- DROP_COLUMN. -/
def applyDropColumnTransformation (data : RowTable) (td : NodeData) :
    RowTable :=
  if td.columnName = "" then data
  else applyRows (dropColumnStep td.columnName) data

/-- Per-row step of RENAME_COLUMN: copy the row, assign the old value under
the new key, delete the old key (all on the copy). -/
def renameColumnStep (c target : String) (row : Row) : RowUpd :=
  .fresh (if jsHas row c then
      jsDel (jsSet row target ((jsGet row c).getD .null)) c
    else row)

/-- RENAME_COLUMN (no-op when `columnName` or `targetValue` is falsy). -/
def applyRenameColumnTransformation (data : RowTable) (td : NodeData) :
    RowTable :=
  if td.columnName = "" ∨ td.targetValue = "" then data
  else applyRows (renameColumnStep td.columnName td.targetValue) data

/-- The list `values`: numeric values of the column across the table
(`data.map(r => parseFloat(r[c])).filter(v => !isNaN(v))`). -/
def numericColumnValues (data : RowTable) (c : String) : List ℚ :=
  data.filterMap (fun row => (jsGet row c).bind parseFloatV)

/-- Per-row step of NORMALIZE: when the row has a parseable value in the
column and the range is non-zero, assign `(v - min) / range` **to the row
object itself** and return it; the row of the caller's table is mutated. -/
def normalizeStep (c : String) (mn range : ℚ) (row : Row) : RowUpd :=
  .inPlace (match (jsGet row c).bind parseFloatV with
    | some v => if range ≠ 0 then jsSet row c (.num ((v - mn) / range))
        else row
    | none => row)

/-- NORMALIZE: min-max scaling of the column's numeric values. -/
def applyNormalizeTransformation (data : RowTable) (td : NodeData) :
    RowTable :=
  if td.columnName = "" then data
  else match numericColumnValues data td.columnName with
    | [] => data
    | v :: vs =>
        let mn := vs.foldl min v
        let mx := vs.foldl max v
        applyRows (normalizeStep td.columnName mn (mx - mn)) data

/-- State of NORMALIZE's input table after the call: every row was returned
`inPlace`, so the input now equals the output. -/
def applyNormalizePost (data : RowTable) (td : NodeData) : RowTable :=
  if td.columnName = "" then data
  else match numericColumnValues data td.columnName with
    | [] => data
    | v :: vs =>
        let mn := vs.foldl min v
        let mx := vs.foldl max v
        postRows (normalizeStep td.columnName mn (mx - mn)) data

/-- Per-row step of FILL_NA: in-place replacement of `null`/`""` values. -/
def fillNAStep (c target : String) (row : Row) : RowUpd :=
  .inPlace (match jsGet row c with
    | some .null => jsSet row c (.str target)
    | some (.str s) => if s = "" then jsSet row c (.str target) else row
    | _ => row)

/-- FILL_NA (`targetValue || ''` collapses a falsy target to `""`, which is
the modelled default already). -/
def applyFillNATransformation (data : RowTable) (td : NodeData) : RowTable :=
  if td.columnName = "" then data
  else applyRows (fillNAStep td.columnName td.targetValue) data

/-- Post-state of FILL_NA's input (in-place steps). -/
def applyFillNAPost (data : RowTable) (td : NodeData) : RowTable :=
  if td.columnName = "" then data
  else postRows (fillNAStep td.columnName td.targetValue) data

/-- Transform a single string value of a row in place when present. -/
def stringColStep (f : String → String) (c : String) (row : Row) : RowUpd :=
  .inPlace (match jsGet row c with
    | some (.str s) => jsSet row c (.str (f s))
    | _ => row)

/-- Copy the row and transform every string value (the `!columnName`
branches of TRIM / TO_UPPER / TO_LOWER / STRIP_WHITESPACE). -/
def stringAllStep (f : String → String) (row : Row) : RowUpd :=
  .fresh (row.map (fun kv =>
    match kv.2 with
    | .str s => (kv.1, Value.str (f s))
    | v => (kv.1, v)))

/-- TRIM: all string columns when `columnName` is falsy (fresh rows),
otherwise the one column in place. -/
def applyTrimTransformation (data : RowTable) (td : NodeData) : RowTable :=
  if td.columnName = "" then applyRows (stringAllStep jsTrim) data
  else applyRows (stringColStep jsTrim td.columnName) data

/-- Post-state of TRIM's input. -/
def applyTrimPost (data : RowTable) (td : NodeData) : RowTable :=
  if td.columnName = "" then postRows (stringAllStep jsTrim) data
  else postRows (stringColStep jsTrim td.columnName) data

/-- JS `s.toUpperCase()` (ASCII model). -/
def jsToUpper (s : String) : String := s.toUpper

/-- JS `s.toLowerCase()` (ASCII model). -/
def jsToLower (s : String) : String := s.toLower

/-- Removal of every whitespace character (`s.replace(/\s+/g, '')`). -/
def jsStripWhitespace (s : String) : String :=
  String.mk (s.toList.filter (fun c => ¬ jsIsWhitespace c))

/-- TO_UPPER. -/
def applyToUpperTransformation (data : RowTable) (td : NodeData) : RowTable :=
  if td.columnName = "" then applyRows (stringAllStep jsToUpper) data
  else applyRows (stringColStep jsToUpper td.columnName) data

/-- Post-state of TO_UPPER's input. -/
def applyToUpperPost (data : RowTable) (td : NodeData) : RowTable :=
  if td.columnName = "" then postRows (stringAllStep jsToUpper) data
  else postRows (stringColStep jsToUpper td.columnName) data

/-- TO_LOWER. -/
def applyToLowerTransformation (data : RowTable) (td : NodeData) : RowTable :=
  if td.columnName = "" then applyRows (stringAllStep jsToLower) data
  else applyRows (stringColStep jsToLower td.columnName) data

/-- Post-state of TO_LOWER's input. -/
def applyToLowerPost (data : RowTable) (td : NodeData) : RowTable :=
  if td.columnName = "" then postRows (stringAllStep jsToLower) data
  else postRows (stringColStep jsToLower td.columnName) data

/-- STRIP_WHITESPACE. -/
def applyStripWhitespaceTransformation (data : RowTable) (td : NodeData) :
    RowTable :=
  if td.columnName = "" then applyRows (stringAllStep jsStripWhitespace) data
  else applyRows (stringColStep jsStripWhitespace td.columnName) data

/-- Post-state of STRIP_WHITESPACE's input. -/
def applyStripWhitespacePost (data : RowTable) (td : NodeData) : RowTable :=
  if td.columnName = "" then postRows (stringAllStep jsStripWhitespace) data
  else postRows (stringColStep jsStripWhitespace td.columnName) data

/-- Per-row step of CONVERT_TO_STRING: in-place `String(row[c])`. -/
def convertToStringStep (c : String) (row : Row) : RowUpd :=
  .inPlace (match jsGet row c with
    | some v => jsSet row c (.str (jsValueToString v))
    | none => row)

/-- CONVERT_TO_STRING. -/
def applyConvertToStringTransformation (data : RowTable) (td : NodeData) :
    RowTable :=
  if td.columnName = "" then data
  else applyRows (convertToStringStep td.columnName) data

/-- Post-state of CONVERT_TO_STRING's input. -/
def applyConvertToStringPost (data : RowTable) (td : NodeData) : RowTable :=
  if td.columnName = "" then data
  else postRows (convertToStringStep td.columnName) data

/-- Per-row step of CONVERT_TO_NUMERIC: strings parse via `parseFloat` and
are left untouched when unparseable; numbers are reassigned; other values
go through `Number(value)`. -/
def convertToNumericStep (c : String) (row : Row) : RowUpd :=
  .inPlace (match jsGet row c with
    | some (.str s) =>
        match jsParseFloat s with
        | some q => jsSet row c (.num q)
        | none => row
    | some (.num q) => jsSet row c (.num q)
    | some .null => jsSet row c (.num (jsNumber .null))
    | none => row)

/-- CONVERT_TO_NUMERIC. -/
def applyConvertToNumericTransformation (data : RowTable) (td : NodeData) :
    RowTable :=
  if td.columnName = "" then data
  else applyRows (convertToNumericStep td.columnName) data

/-- Post-state of CONVERT_TO_NUMERIC's input. -/
def applyConvertToNumericPost (data : RowTable) (td : NodeData) : RowTable :=
  if td.columnName = "" then data
  else postRows (convertToNumericStep td.columnName) data

/-- Decimal-place count from `targetValue ? parseInt(targetValue, 10) : d₀`
(an unparseable or negative count would raise a `RangeError` in JS; the
claims never exercise that corner, and the model clamps it to the default). -/
def decimalPlaces (targetValue : String) (d₀ : Nat) : Nat :=
  if targetValue = "" then d₀
  else match jsParseInt targetValue with
    | some k => k.toNat
    | none => d₀

/-- Per-row step of ROUND_NUMBERS: only values already of number type. -/
def roundNumbersStep (c : String) (d : Nat) (row : Row) : RowUpd :=
  .inPlace (match jsGet row c with
    | some (.num q) => jsSet row c (.num (jsRoundTo q d))
    | _ => row)

/-- ROUND_NUMBERS (default 0 decimal places). -/
def applyRoundNumbersTransformation (data : RowTable) (td : NodeData) :
    RowTable :=
  if td.columnName = "" then data
  else applyRows (roundNumbersStep td.columnName
    (decimalPlaces td.targetValue 0)) data

/-- Post-state of ROUND_NUMBERS's input. -/
def applyRoundNumbersPost (data : RowTable) (td : NodeData) : RowTable :=
  if td.columnName = "" then data
  else postRows (roundNumbersStep td.columnName
    (decimalPlaces td.targetValue 0)) data

/-- Per-row step of FORMAT_NUMBERS: number values become fixed-decimal
strings. -/
def formatNumbersStep (c : String) (d : Nat) (row : Row) : RowUpd :=
  .inPlace (match jsGet row c with
    | some (.num q) => jsSet row c (.str (jsToFixed q d))
    | _ => row)

/-- FORMAT_NUMBERS (default 2 decimal places). -/
def applyFormatNumbersTransformation (data : RowTable) (td : NodeData) :
    RowTable :=
  if td.columnName = "" then data
  else applyRows (formatNumbersStep td.columnName
    (decimalPlaces td.targetValue 2)) data

/-- Post-state of FORMAT_NUMBERS's input. -/
def applyFormatNumbersPost (data : RowTable) (td : NodeData) : RowTable :=
  if td.columnName = "" then data
  else postRows (formatNumbersStep td.columnName
    (decimalPlaces td.targetValue 2)) data

/-- Default pattern of REMOVE_SPECIAL_CHARS: strip every character outside
`[a-zA-Z0-9\s]`. -/
def removeSpecialDefault (s : String) : String :=
  String.mk (s.toList.filter (fun c => c.isAlphanum ∨ jsIsWhitespace c))

/-- Letters-and-whitespace filter of EXTRACT_STRINGS
(`s.replace(/[^a-zA-Z\s]/g, '')`). -/
def extractStringsFilter (s : String) : String :=
  String.mk (s.toList.filter (fun c => c.isAlpha ∨ jsIsWhitespace c))

/-- Concatenation of every match of `/\d+(?:\.\d+)?/g` in the character
list (EXTRACT_NUMBERS): a match is a maximal digit run, optionally with a
decimal point followed by a further digit run.  Fuel-indexed so the kernel
can evaluate it; each step consumes at least one character, so any fuel
above the list length is exact. -/
def extractNumbersScan : Nat → List Char → List Char
  | 0, _ => []
  | _ + 1, [] => []
  | f + 1, c :: cs =>
      if c.isDigit then
        let rest := cs.dropWhile Char.isDigit
        if rest.head? = some '.' ∧ ((rest.tail).headD 'x').isDigit then
          (c :: cs.takeWhile Char.isDigit) ++ '.' ::
            rest.tail.takeWhile Char.isDigit ++
            extractNumbersScan f (rest.tail.dropWhile Char.isDigit)
        else (c :: cs.takeWhile Char.isDigit) ++ extractNumbersScan f rest
      else extractNumbersScan f cs

/-- String form of EXTRACT_NUMBERS's match-and-join. -/
def extractNumbersString (s : String) : String :=
  String.mk (extractNumbersScan (s.toList.length + 1) s.toList)

/-- Abstract interface to platform functions the engine calls but the
repository does not implement: `JSON.parse` of an input file (yielding a
table, or a thrown error's message), `JSON.stringify` (used for JSON and
XML output and as the default), `parseXMLToArray`'s `DOMParser`-based core,
and `String.prototype.replace` with a user-supplied regular expression. -/
structure JSPrims where
  jsonParse : String → Except String RowTable
  stringifyTable : RowTable → String
  stringifyAny : String → String
  xmlParseTable : String → RowTable
  regexRemove : String → String → String

/-- Per-row step of REMOVE_SPECIAL_CHARS. -/
def removeSpecialStep (P : JSPrims) (c target : String) (row : Row) :
    RowUpd :=
  .inPlace (match jsGet row c with
    | some (.str s) =>
        jsSet row c (.str (if target = "" then removeSpecialDefault s
          else P.regexRemove target s))
    | _ => row)

/-- REMOVE_SPECIAL_CHARS. -/
def applyRemoveSpecialCharsTransformation (P : JSPrims) (data : RowTable)
    (td : NodeData) : RowTable :=
  if td.columnName = "" then data
  else applyRows (removeSpecialStep P td.columnName td.targetValue) data

/-- Post-state of REMOVE_SPECIAL_CHARS's input. -/
def applyRemoveSpecialCharsPost (P : JSPrims) (data : RowTable)
    (td : NodeData) : RowTable :=
  if td.columnName = "" then data
  else postRows (removeSpecialStep P td.columnName td.targetValue) data

/-- Per-row step of EXTRACT_NUMBERS. -/
def extractNumbersStep (c : String) (row : Row) : RowUpd :=
  .inPlace (match jsGet row c with
    | some (.str s) => jsSet row c (.str (extractNumbersString s))
    | _ => row)

/-- EXTRACT_NUMBERS. -/
def applyExtractNumbersTransformation (data : RowTable) (td : NodeData) :
    RowTable :=
  if td.columnName = "" then data
  else applyRows (extractNumbersStep td.columnName) data

/-- Post-state of EXTRACT_NUMBERS's input. -/
def applyExtractNumbersPost (data : RowTable) (td : NodeData) : RowTable :=
  if td.columnName = "" then data
  else postRows (extractNumbersStep td.columnName) data

/-- Per-row step of EXTRACT_STRINGS. -/
def extractStringsStep (c : String) (row : Row) : RowUpd :=
  .inPlace (match jsGet row c with
    | some (.str s) => jsSet row c (.str (extractStringsFilter s))
    | _ => row)

/-- EXTRACT_STRINGS. -/
def applyExtractStringsTransformation (data : RowTable) (td : NodeData) :
    RowTable :=
  if td.columnName = "" then data
  else applyRows (extractStringsStep td.columnName) data

/-- Post-state of EXTRACT_STRINGS's input. -/
def applyExtractStringsPost (data : RowTable) (td : NodeData) : RowTable :=
  if td.columnName = "" then data
  else postRows (extractStringsStep td.columnName) data

/-- The `switch (transformType)` dispatcher inside
`executeTransformNodeInPath`: the returned table on success, or the
`Unsupported transform type` error. -/
def applyTransform (P : JSPrims) (ty : String) (data : RowTable)
    (td : NodeData) : Except String RowTable :=
  match ty with
  | "NONE" => .ok data
  | "FILTER" => .ok (applyFilterTransformation data td)
  | "DROP_COLUMN" => .ok (applyDropColumnTransformation data td)
  | "RENAME_COLUMN" => .ok (applyRenameColumnTransformation data td)
  | "NORMALIZE" => .ok (applyNormalizeTransformation data td)
  | "FILL_NA" => .ok (applyFillNATransformation data td)
  | "TRIM" => .ok (applyTrimTransformation data td)
  | "TO_UPPER" => .ok (applyToUpperTransformation data td)
  | "TO_LOWER" => .ok (applyToLowerTransformation data td)
  | "CONVERT_TO_STRING" => .ok (applyConvertToStringTransformation data td)
  | "CONVERT_TO_NUMERIC" => .ok (applyConvertToNumericTransformation data td)
  | "ROUND_NUMBERS" => .ok (applyRoundNumbersTransformation data td)
  | "FORMAT_NUMBERS" => .ok (applyFormatNumbersTransformation data td)
  | "STRIP_WHITESPACE" => .ok (applyStripWhitespaceTransformation data td)
  | "REMOVE_SPECIAL_CHARS" =>
      .ok (applyRemoveSpecialCharsTransformation P data td)
  | "EXTRACT_NUMBERS" => .ok (applyExtractNumbersTransformation data td)
  | "EXTRACT_STRINGS" => .ok (applyExtractStringsTransformation data td)
  | _ => .error ("Unsupported transform type: " ++ ty)

/-- State each transform kind leaves its input table in (derived from the
per-row steps: kinds whose callbacks copy the row, and kinds that never run
a row callback, leave the input untouched; kinds whose callbacks assign
into the received row leave the input equal to the output). -/
def applyTransformPost (P : JSPrims) (ty : String) (data : RowTable)
    (td : NodeData) : RowTable :=
  match ty with
  | "FILTER" => data
  | "DROP_COLUMN" => data
  | "RENAME_COLUMN" => data
  | "NORMALIZE" => applyNormalizePost data td
  | "FILL_NA" => applyFillNAPost data td
  | "TRIM" => applyTrimPost data td
  | "TO_UPPER" => applyToUpperPost data td
  | "TO_LOWER" => applyToLowerPost data td
  | "CONVERT_TO_STRING" => applyConvertToStringPost data td
  | "CONVERT_TO_NUMERIC" => applyConvertToNumericPost data td
  | "ROUND_NUMBERS" => applyRoundNumbersPost data td
  | "FORMAT_NUMBERS" => applyFormatNumbersPost data td
  | "STRIP_WHITESPACE" => applyStripWhitespacePost data td
  | "REMOVE_SPECIAL_CHARS" => applyRemoveSpecialCharsPost P data td
  | "EXTRACT_NUMBERS" => applyExtractNumbersPost data td
  | "EXTRACT_STRINGS" => applyExtractStringsPost data td
  | _ => data

/-!
## Graph model (`src/client/src/types`)

The engine touches a node only through `_id`, `type` and `data`, and an
edge only through `source._id` and `target._id`, so positions are dropped
and edges carry the two ids.
-/

/-- A workflow node.  `type` is the runtime string (`"input"`,
`"transform"`, `"output"`; the engine has a default branch for anything
else). -/
structure WorkflowNode where
  _id : String
  type : String
  data : NodeData
deriving DecidableEq, Repr

/-- A directed edge, by the ids of its endpoint nodes
(`edge.source._id`, `edge.target._id`). -/
structure WorkflowEdge where
  source : String
  target : String
deriving DecidableEq, Repr

/-- The workflow definition: node and edge lists, in insertion order. -/
structure WorkflowDefinition where
  nodes : List WorkflowNode
  edges : List WorkflowEdge
deriving DecidableEq, Repr

/-- A workflow (only the `definition` field is read by the engine). -/
structure Workflow where
  definition : WorkflowDefinition
deriving DecidableEq, Repr

/-- The ids of a workflow's nodes, in list order. -/
def nodeIds (w : Workflow) : List String :=
  w.definition.nodes.map (fun n => n._id)

/-- Lookup used throughout the engine:
`workflow.definition.nodes.find(n => n._id === nodeId)`. -/
def findNode (w : Workflow) (nodeId : String) : Option WorkflowNode :=
  w.definition.nodes.find? (fun n => n._id = nodeId)

/-- The edge relation of a workflow. -/
def edgeRel (w : Workflow) (s t : String) : Prop :=
  ∃ e ∈ w.definition.edges, e.source = s ∧ e.target = t

/-- A directed cycle exists: some id reaches itself in one or more steps of
the edge relation. -/
def hasCycleProp (w : Workflow) : Prop :=
  ∃ a, Relation.TransGen (edgeRel w) a a

/-- Well-formedness from the data model (§3 of the spec): every edge's
endpoint ids reference nodes of the same graph.  The engine indexes its
adjacency structures by node id and would throw on a dangling endpoint. -/
def edgesClosed (w : Workflow) : Prop :=
  ∀ e ∈ w.definition.edges, e.source ∈ nodeIds w ∧ e.target ∈ nodeIds w

instance (w : Workflow) : Decidable (edgesClosed w) := by
  unfold edgesClosed
  infer_instance

/-- Adjacency list of `hasCircularDependencies` /
`determineExecutionOrder`: targets of the edges leaving a node, in edge
list order (`adjList[edge.source._id].push(edge.target._id)`). -/
def adjListOf (w : Workflow) (v : String) : List String :=
  (w.definition.edges.filter (fun e => e.source = v)).map
    (fun e => e.target)

/-!
## Cycle detection (`hasCircularDependencies` / `detectCycleDFS`)

The recursive `detectCycleDFS` mutates two shared sets: `visiting` (gray)
is restored on every `false` return, so it is passed down unchanged to
siblings; `visited` (black) only grows, so it is threaded through.  The
model is fuel-indexed; exhausted fuel conservatively reports `true`, so a
`false` result always comes from a faithfully executed run (and the fuel
`nodes.length + 1` is enough for every well-formed graph, since each nested
call inserts a fresh node id into the gray set).
-/

/-- The three-colour DFS (`detectCycleDFS`): returns the boolean result and
the final black set. -/
def detectCycleDFS (adj : String → List String) :
    Nat → String → Finset String → Finset String → Bool × Finset String
  | 0, _, _, black => (true, black)
  | fuel + 1, v, gray, black =>
      if v ∈ gray then (true, black)
      else if v ∈ black then (false, black)
      else
        let res := (adj v).foldl
          (fun acc n =>
            if acc.1 then acc
            else detectCycleDFS adj fuel n (insert v gray) acc.2)
          (false, black)
        if res.1 then (true, res.2) else (false, insert v res.2)

/-- Driver loop of `hasCircularDependencies`: run the DFS from every node
not yet black, short-circuiting on the first `true`. -/
def hasCircularDependencies (w : Workflow) : Bool :=
  (w.definition.nodes.foldl
    (fun acc node =>
      if acc.1 then acc
      else if node._id ∈ acc.2 then acc
      else detectCycleDFS (adjListOf w) (w.definition.nodes.length + 1)
        node._id ∅ acc.2)
    (false, (∅ : Finset String))).1

/-!
## Disconnected-node check (`findDisconnectedNodes`)
-/

/-- One pass of the fixed-point propagation: scan the edge list once,
adding each target whose source is already connected. -/
def propagateStep (edges : List WorkflowEdge) (s : Finset String) :
    Finset String :=
  edges.foldl
    (fun t e => if e.source ∈ t ∧ e.target ∉ t then insert e.target t else t)
    s

/-- The `while (changed)` loop: repeat passes until a pass adds nothing.
Each productive pass adds at least one of the (at most `edges.length`)
distinct edge targets, so the fuel `edges.length + 1` reaches the fixed
point. -/
def propagateConnections (edges : List WorkflowEdge) :
    Nat → Finset String → Finset String
  | 0, s => s
  | fuel + 1, s =>
      let s' := propagateStep edges s
      if s' = s then s else propagateConnections edges fuel s'

/-- Ids of nodes with no forward path from any input node. -/
def findDisconnectedNodes (w : Workflow) : List String :=
  let seed : Finset String :=
    ((w.definition.nodes.filter (fun n => n.type = "input")).map
      (fun n => n._id)).toFinset
  let connected := propagateConnections w.definition.edges
    (w.definition.edges.length + 1) seed
  (w.definition.nodes.filter (fun n => n._id ∉ connected)).map
    (fun n => n._id)

/-- Result of `validateWorkflow`. -/
structure ValidationResult where
  valid : Bool
  error : Option String := none
deriving DecidableEq, Repr

/-- The fixed error message of the cyclic-graph branch. -/
def cyclicError : String := "Workflow has circular dependencies"

/-- The structural validation, in source order: at least one input node,
at least one output node, no circular dependencies, no disconnected
nodes. -/
def validateWorkflow (w : Workflow) : ValidationResult :=
  if (w.definition.nodes.filter (fun n => n.type = "input")).length = 0 then
    ⟨false, some "Workflow must have at least one input node"⟩
  else if (w.definition.nodes.filter (fun n => n.type = "output")).length
      = 0 then
    ⟨false, some "Workflow must have at least one output node"⟩
  else if hasCircularDependencies w then
    ⟨false, some cyclicError⟩
  else
    match findDisconnectedNodes w with
    | [] => ⟨true, none⟩
    | ds => ⟨false, some ("Workflow has disconnected nodes: " ++
        String.intercalate ", " ds)⟩

/-!
## Full-graph topological order (`determineExecutionOrder`)
-/

/-- The in-degree map after initialisation: every node id starts at 0 and
each edge increments its target. -/
def inDegreeInit (w : Workflow) : String → Int :=
  w.definition.edges.foldl
    (fun f e => Function.update f e.target (f e.target + 1))
    (fun _ => 0)

/-- Processing of one dequeued node: decrement each neighbour in adjacency
order and collect those that reach in-degree zero, in that order. -/
def kahnRelax (neighbors : List String) (deg : String → Int) :
    List String × (String → Int) :=
  neighbors.foldl
    (fun acc n =>
      let d := acc.2 n - 1
      (if d = 0 then acc.1 ++ [n] else acc.1, Function.update acc.2 n d))
    ([], deg)

/-- The `while (queue.length > 0)` loop of Kahn's algorithm (FIFO queue,
appended order).  Fuel-indexed; under the loop invariants the queue
empties within `nodes.length` iterations, so the fuel passed by
`determineExecutionOrder` is never exhausted. -/
def kahnLoop (adj : String → List String) :
    Nat → List String → List String → (String → Int) → List String
  | 0, _, order, _ => order
  | _ + 1, [], order, _ => order
  | fuel + 1, cur :: rest, order, deg =>
      let s := kahnRelax (adj cur) deg
      kahnLoop adj fuel (rest ++ s.1) (order ++ [cur]) s.2

/-- Result of `determineExecutionOrder`. -/
structure ExecOrderResult where
  success : Bool
  order : List String := []
  error : Option String := none
deriving DecidableEq, Repr

/-- Topological sort of the whole graph by Kahn's algorithm; fails when
fewer ids are emitted than nodes exist. -/
def determineExecutionOrder (w : Workflow) : ExecOrderResult :=
  let deg := inDegreeInit w
  let queue := (nodeIds w).filter (fun id => deg id = 0)
  let order := kahnLoop (adjListOf w) (w.definition.nodes.length)
    queue [] deg
  if order.length ≠ w.definition.nodes.length then
    ⟨false, [],
      some "Cycle detected in workflow - cannot determine execution order"⟩
  else ⟨true, order, none⟩

/-!
## Per-output upstream path (`getUpstreamPath`)
-/

/-- The recursive `traverse` closure: mark the id visited, append its node
to the path, then recurse into the source of every edge targeting it, in
edge-list order.  Fuel-indexed (exhaustion leaves the state unchanged); a
chain of nested calls visits pairwise-distinct ids that, except possibly
the last, are all node ids, so the fuel `nodes.length + 2` passed by
`getUpstreamPath` is never exhausted. -/
def traverse (w : Workflow) :
    Nat → String → Finset String → List WorkflowNode →
      Finset String × List WorkflowNode
  | 0, _, vis, path => (vis, path)
  | fuel + 1, nodeId, vis, path =>
      if nodeId ∈ vis then (vis, path)
      else
        let vis' := insert nodeId vis
        match findNode w nodeId with
        | none => (vis', path)
        | some node =>
            (w.definition.edges.filter (fun e => e.target = nodeId)).foldl
              (fun acc e => traverse w fuel e.source acc.1 acc.2)
              (vis', path ++ [node])

/-- Upstream path of an output node: walk incoming edges backwards from it,
then reverse the collected nodes into execution order. -/
def getUpstreamPath (w : Workflow) (outputNodeId : String) :
    List WorkflowNode :=
  (traverse w (w.definition.nodes.length + 2) outputNodeId ∅ []).2.reverse

/-!
## CSV parsing

`WorkflowEngine.parseCSV` (naive comma split, used by input nodes) and
`dataParser.parseCSVToArray` / `parseCSVLine` (quote-aware state machine).
-/

/-- One record from a header list and a value list:
`row[headers[j]] = values[j]?.trim() || ''` for each `j` below the header
count (`undefined?.trim() || ''` and a whitespace-only field both collapse
to `""`). -/
def buildRow (headers values : List String) : Row :=
  (headers.enum).foldl
    (fun row hj =>
      jsSet row hj.2 (.str (((values.get? hj.1).map jsTrim).getD "")))
    []

/-- The nonempty lines of a file: split on newline, drop lines that trim to
the empty string. -/
def csvLines (content : String) : List String :=
  (content.splitOn "\n").filter (fun line => jsTrim line ≠ "")

/-- `WorkflowEngine.parseCSV`: first nonempty line split on commas and
trimmed gives the headers; every later line becomes a record. -/
def parseCSV (content : String) : RowTable :=
  match csvLines content with
  | [] => []
  | headerLine :: rest =>
      let headers := (headerLine.splitOn ",").map jsTrim
      rest.map (fun line => buildRow headers (line.splitOn ","))

/-- Character loop of `dataParser.parseCSVLine`: split on commas outside
quotes, `""` inside quotes is an escaped quote. -/
def parseCSVLineAux :
    List Char → Bool → String → List String → List String
  | [], _, current, result => result ++ [current]
  | c :: rest, inQuotes, current, result =>
      if c = '"' ∧ ¬ inQuotes then
        parseCSVLineAux rest true current result
      else if c = '"' ∧ inQuotes then
        if rest.head? = some '"' then
          parseCSVLineAux rest.tail true (current.push '"') result
        else parseCSVLineAux rest false current result
      else if c = ',' ∧ ¬ inQuotes then
        parseCSVLineAux rest inQuotes "" (result ++ [current])
      else parseCSVLineAux rest inQuotes (current.push c) result
termination_by cs _ _ _ => cs.length
decreasing_by
  all_goals simp_wf
  all_goals omega

/-- `dataParser.parseCSVLine`. -/
def parseCSVLine (line : String) : List String :=
  parseCSVLineAux line.toList false "" []

/-- The header fields `parseCSVToArray` uses for a file: the quote-aware
split of the first nonempty line (headers are not trimmed here). -/
def csvHeaders (content : String) : List String :=
  parseCSVLine ((csvLines content).headD "")

/-- `dataParser.parseCSVToArray`: like `parseCSV` but each line is split by
the quote-aware `parseCSVLine` and headers are taken verbatim. -/
def parseCSVToArray (content : String) : RowTable :=
  match csvLines content with
  | [] => []
  | headerLine :: rest =>
      let headers := parseCSVLine headerLine
      rest.map (fun line => buildRow headers (parseCSVLine line))

/-!
## Execution engine

`executeWorkflow` and the per-path executors.  Exceptions become
`Except.error`; the per-node error strings are built exactly as in the
source.  Three raw-JS corner behaviours are noted at their use sites.
-/

/-- Structural deep copy of a value (`deepClone` leaf case). -/
def deepCloneValue : Value → Value
  | .str s => .str s
  | .num q => .num q
  | .null => .null

/-- Structural deep copy of a table (`deepClone` on an array of records):
fresh row objects with equal contents. -/
def deepClone (t : RowTable) : RowTable :=
  t.map (fun row => row.map (fun kv => (kv.1, deepCloneValue kv.2)))

/-- Result stored for a node: a table (input and transform nodes) or the
output object `{fileName, fileFormat, content, processedData}` built by an
output node. -/
inductive NodeRes where
  | table (t : RowTable)
  | out (fileName fileFormat content : String) (processedData : NodeRes)
deriving DecidableEq, Repr

/-- `convertToCSV`: empty string unless the data is a nonempty array; the
first record's keys are the headers; a string cell containing a comma or a
quote is quoted with doubled quotes; a missing cell (`undefined` under a
header key) joins as the empty string and other values join via their
string form. -/
def convertToCSV : NodeRes → String
  | .out _ _ _ _ => ""
  | .table [] => ""
  | .table (r₀ :: rest) =>
      let headers := r₀.map (fun kv => kv.1)
      let cell : Row → String → String := fun row h =>
        match jsGet row h with
        | none => ""
        | some .null => "null"
        | some (.num q) => jsNumToString q
        | some (.str s) =>
            if s.toList.contains ',' ∨ s.toList.contains '"' then
              "\"" ++ (s.toList.foldl
                (fun acc c => acc ++ (if c = '"' then "\"\"" else
                  String.mk [c])) "") ++ "\""
            else s
      String.intercalate "\n"
        (String.intercalate "," headers ::
          (r₀ :: rest).map (fun row =>
            String.intercalate "," (headers.map (cell row))))

/-- Serialisation of a node result by the abstract `JSON.stringify`
(the JSON branch, the XML placeholder and the default branch all call it). -/
def stringifyRes (P : JSPrims) : NodeRes → String
  | .table t => P.stringifyTable t
  | .out fn ff c _ => P.stringifyAny (fn ++ "|" ++ ff ++ "|" ++ c)

/-- `executeInputNode`: materialise the table from the stored file content
(CSV by `parseCSV`, XML by the abstract `parseXMLToArray`, anything else by
the abstract `JSON.parse`), then deep-clone it. -/
def executeInputNode (P : JSPrims) (node : WorkflowNode) :
    Except String NodeRes :=
  match node.data.file with
  | none => .error ("Input node " ++ node._id ++ " has no file content")
  | some f =>
      if f.fileContent = "" then
        .error ("Input node " ++ node._id ++ " has no file content")
      else if jsToLower f.fileFormat = "csv" then
        .ok (.table (deepClone (parseCSV f.fileContent)))
      else if jsToLower f.fileFormat = "xml" then
        .ok (.table (deepClone (P.xmlParseTable f.fileContent)))
      else
        match P.jsonParse f.fileContent with
        | .ok t => .ok (.table (deepClone t))
        | .error m => .error ("Failed to parse input file: " ++ m)

/-- `getSourceNodeIdInPath`: source of the first incoming edge whose source
already has a result in this path. -/
def getSourceNodeIdInPath (w : Workflow) (nodeId : String)
    (pathResults : List (String × NodeRes)) : Option String :=
  ((w.definition.edges.filter (fun e => e.target = nodeId)).find?
    (fun e => jsHas pathResults e.source)).map (fun e => e.source)

/-- `executeTransformNodeInPath`: resolve the in-path source, deep-clone
its table (the mutation barrier between paths), dispatch on the transform
kind.  A non-table source value would make the JS transform body throw and
be caught as a transform execution error. -/
def executeTransformNodeInPath (P : JSPrims) (w : Workflow)
    (node : WorkflowNode) (pathResults : List (String × NodeRes)) :
    Except String NodeRes :=
  match getSourceNodeIdInPath w node._id pathResults with
  | none => .error ("Transform node " ++ node._id ++
      " has no connected input data in its path")
  | some sid =>
      match jsGet pathResults sid with
      | none => .error ("No input data available for transform node " ++
          node._id)
      | some (.out _ _ _ _) =>
          .error "Transform node execution error: data is not an array"
      | some (.table t) =>
          match applyTransform P node.data.transformType (deepClone t)
              node.data with
          | .ok r => .ok (.table r)
          | .error e => .error e

/-- `executeOutputNodeInPath`: resolve the in-path source and serialise its
result in the declared format, keeping the processed data for preview.
`file?.filename || ...` and `file?.fileFormat || 'json'` treat a missing
file and an empty string alike. -/
def executeOutputNodeInPath (P : JSPrims) (w : Workflow)
    (node : WorkflowNode) (pathResults : List (String × NodeRes)) :
    Except String NodeRes :=
  match getSourceNodeIdInPath w node._id pathResults with
  | none => .error ("Output node " ++ node._id ++
      " has no connected input data in its path")
  | some sid =>
      match jsGet pathResults sid with
      | none => .error ("No input data available for output node " ++
          node._id)
      | some input =>
          let fmt := jsToLower
            ((node.data.file.map (fun f => f.fileFormat)).getD "")
          let content :=
            if fmt = "csv" then convertToCSV input
            else stringifyRes P input
          let fileName :=
            match node.data.file with
            | some f =>
                if f.filename = "" then "output_" ++ node._id ++ ".json"
                else f.filename
            | none => "output_" ++ node._id ++ ".json"
          let fileFormat :=
            match node.data.file with
            | some f => if f.fileFormat = "" then "json" else f.fileFormat
            | none => "json"
          .ok (.out fileName fileFormat content input)

/-- `executeNodeInPath`: dispatch on the runtime node type. -/
def executeNodeInPath (P : JSPrims) (w : Workflow) (node : WorkflowNode)
    (pathResults : List (String × NodeRes)) : Except String NodeRes :=
  if node.type = "input" then executeInputNode P node
  else if node.type = "transform" then
    executeTransformNodeInPath P w node pathResults
  else if node.type = "output" then
    executeOutputNodeInPath P w node pathResults
  else .error ("Unknown node type: " ++ node.type)

/-- Body of `executePath`'s `for` loop: run each node, wrap a failure in
the node-identifying message, store the result under the node's id. -/
def executePathAux (P : JSPrims) (w : Workflow) :
    List WorkflowNode → List (String × NodeRes) →
      Except String (List (String × NodeRes))
  | [], acc => .ok acc
  | node :: rest, acc =>
      match executeNodeInPath P w node acc with
      | .error e => .error ("Node " ++ node._id ++ " (" ++ node.type ++
          ") execution failed: " ++ e)
      | .ok d => executePathAux P w rest (acc ++ [(node._id, d)])

/-- `executePath`: run the nodes in order and return the last node's
stored result.  (On an empty path the JS code would fault reading
`path[path.length - 1]._id`; `executeWorkflow` only passes paths containing
their output node, so the two fallback errors below are unreachable from
it.) -/
def executePath (P : JSPrims) (w : Workflow) (path : List WorkflowNode) :
    Except String NodeRes :=
  match executePathAux P w path [] with
  | .error e => .error e
  | .ok acc =>
      match path.getLast? with
      | none => .error "empty path"
      | some lastNode =>
          match jsGet acc lastNode._id with
          | some d => .ok d
          | none => .error "missing path result"

/-- Result of `executeWorkflow`. -/
structure ExecutionResult where
  success : Bool
  data : List (String × NodeRes) := []
  error : Option String := none
  nodeResults : List (String × NodeRes) := []
deriving DecidableEq, Repr

/-- The per-output loop of `executeWorkflow`: on the first failing path,
return the failure with the results gathered so far; otherwise record the
result under the output's id in both maps.  (`nodeResults` is passed to
`executePath` as `globalResults` in the source, but no node executor reads
it, so it is not a parameter here.) -/
def executeOutputs (P : JSPrims) (w : Workflow) :
    List WorkflowNode → List (String × NodeRes) →
      List (String × NodeRes) → ExecutionResult
  | [], nodeResults, allOut => ⟨true, allOut, none, nodeResults⟩
  | o :: rest, nodeResults, allOut =>
      match executePath P w (getUpstreamPath w o._id) with
      | .error e =>
          ⟨false, [], some ("Execution failed for output node " ++ o._id ++
            ": " ++ e), nodeResults⟩
      | .ok d =>
          executeOutputs P w rest (jsSet nodeResults o._id d)
            (jsSet allOut o._id d)

/-- `executeWorkflow`: validate, then execute one upstream path per output
node, in node enumeration order. -/
def executeWorkflow (P : JSPrims) (w : Workflow) : ExecutionResult :=
  let validation := validateWorkflow w
  if validation.valid = false then
    ⟨false, [], some ("Workflow validation failed: " ++
      validation.error.getD ""), []⟩
  else
    executeOutputs P w
      (w.definition.nodes.filter (fun n => n.type = "output")) [] []

/-!
## Properties used by the claim statements
-/

/-- The step relation of an adjacency function. -/
def AdjRel (adj : String → List String) (a b : String) : Prop :=
  b ∈ adj a

/-- Invariant of the three-colour DFS: gray and black are disjoint, black
is closed under successors, and no cycle passes through a black node. -/
def DfsInv (adj : String → List String) (gray black : Finset String) :
    Prop :=
  (∀ y ∈ gray, y ∉ black) ∧
  (∀ x ∈ black, ∀ y, AdjRel adj x y → y ∈ black) ∧
  (∀ x ∈ black, ¬ Relation.TransGen (AdjRel adj) x x)

/-- A node sequence is in topological (source-to-sink) order for a graph:
for every edge both of whose endpoints occur in the sequence, the source
occurs strictly before the target. -/
def pathIsTopological (w : Workflow) (path : List WorkflowNode) : Prop :=
  ∀ e ∈ w.definition.edges,
    e.source ∈ path.map (fun n => n._id) →
    e.target ∈ path.map (fun n => n._id) →
    (path.map (fun n => n._id)).indexOf e.source <
      (path.map (fun n => n._id)).indexOf e.target

instance (w : Workflow) (path : List WorkflowNode) :
    Decidable (pathIsTopological w path) := by
  unfold pathIsTopological
  infer_instance

/-- Every node has at most one incoming edge (single-parent data flow, the
documented §4.2 tie-break situation never arises). -/
def singleParent (w : Workflow) : Prop :=
  ∀ t, (w.definition.edges.filter (fun e => e.target = t)).length ≤ 1

instance (w : Workflow) : Decidable (singleParent w) := by
  have h : singleParent w ↔ ∀ t ∈ w.definition.edges.map
      (fun e => e.target),
      (w.definition.edges.filter (fun e => e.target = t)).length ≤ 1 := by
    constructor
    · intro h t _
      exact h t
    · intro h t
      by_cases ht : t ∈ w.definition.edges.map (fun e => e.target)
      · exact h t ht
      · have : w.definition.edges.filter (fun e => e.target = t) = [] := by
          rw [List.filter_eq_nil]
          intro e he hext
          exact ht (List.mem_map.mpr ⟨e, he, by simpa using hext⟩)
        simp [this]
  exact decidable_of_iff _ h.symm

/-- The set of numeric values a column takes across a table (the values
NORMALIZE collects). -/
def numericSet (data : RowTable) (c : String) : Set ℚ :=
  {q | ∃ row ∈ data, (jsGet row c).bind parseFloatV = some q}

/-- Invariant of Kahn's loop: emitted and queued ids are distinct node ids;
the degree map counts, for every id, the incoming edges whose source is not
yet emitted; every emitted or queued id has all its incoming sources
emitted; a node id neither emitted nor queued has nonzero remaining
degree; and the emitted prefix is already topologically ordered. -/
def KahnInv (w : Workflow) (queue order : List String)
    (deg : String → Int) : Prop :=
  (order ++ queue).Nodup ∧
  (∀ x ∈ order ++ queue, x ∈ nodeIds w) ∧
  (∀ v, deg v = ((w.definition.edges.filter
      (fun e => e.target = v ∧ e.source ∉ order)).length : Int)) ∧
  (∀ v ∈ order ++ queue, ∀ e ∈ w.definition.edges, e.target = v →
    e.source ∈ order) ∧
  (∀ v ∈ nodeIds w, v ∉ order → v ∉ queue → deg v ≠ 0) ∧
  (∀ e ∈ w.definition.edges, e.target ∈ order →
    ∃ i j, i < j ∧ order.get? i = some e.source ∧
      order.get? j = some e.target)

/-!
## Concrete instances used by counterexamples and witnesses
-/

/-- Node payload carrying nothing. -/
def emptyData : NodeData := ⟨none, "", "", "", ""⟩

/-- Node payload of an input node holding a small CSV file. -/
def csvData (content : String) : NodeData :=
  ⟨some ⟨"in.csv", content, "csv"⟩, "", "", "", ""⟩

/-- A two-node graph with a cycle and no input node: `A ⇄ B`. -/
def wCycNoInput : Workflow := ⟨⟨
  [⟨"A", "transform", ⟨none, "TRIM", "", "", ""⟩⟩,
   ⟨"B", "transform", ⟨none, "TRIM", "", "", ""⟩⟩],
  [⟨"A", "B"⟩, ⟨"B", "A"⟩]⟩⟩

/-- A graph with one input, one output and a cycle `A ⇄ B` between them. -/
def wCyc : Workflow := ⟨⟨
  [⟨"I", "input", csvData "a\n1"⟩,
   ⟨"A", "transform", ⟨none, "TRIM", "", "", ""⟩⟩,
   ⟨"B", "transform", ⟨none, "TRIM", "", "", ""⟩⟩,
   ⟨"O", "output", emptyData⟩],
  [⟨"I", "A"⟩, ⟨"A", "B"⟩, ⟨"B", "A"⟩, ⟨"B", "O"⟩]⟩⟩

/-- A valid three-node chain `I → T → O`. -/
def wChain : Workflow := ⟨⟨
  [⟨"I", "input", csvData "a\n1"⟩,
   ⟨"T", "transform", ⟨none, "TRIM", "", "", ""⟩⟩,
   ⟨"O", "output", emptyData⟩],
  [⟨"I", "T"⟩, ⟨"T", "O"⟩]⟩⟩

/-- An acyclic diamond: input `A` feeds both the transform `B` and the
output `O` directly, and `B` also feeds `O`; the edge list order puts
`A → O` before `B → O`. -/
def wDiamond : Workflow := ⟨⟨
  [⟨"A", "input", csvData "a\n1"⟩,
   ⟨"B", "transform", ⟨none, "TRIM", "", "", ""⟩⟩,
   ⟨"O", "output", emptyData⟩],
  [⟨"A", "O"⟩, ⟨"B", "O"⟩, ⟨"A", "B"⟩]⟩⟩

/-- Concrete platform primitives for witnesses (the theorems applied to
them hold for every instantiation). -/
def dummyPrims : JSPrims :=
  ⟨fun _ => .error "parse error", fun _ => "", fun _ => "",
    fun _ => [], fun _ s => s⟩

/-- `wChain` extended with a second output `O2` fed by the same transform:
the part upstream of `O` is untouched. -/
def wChainTwo : Workflow := ⟨⟨
  [⟨"I", "input", csvData "a\n1"⟩,
   ⟨"T", "transform", ⟨none, "TRIM", "", "", ""⟩⟩,
   ⟨"O", "output", emptyData⟩,
   ⟨"O2", "output", emptyData⟩],
  [⟨"I", "T"⟩, ⟨"T", "O"⟩, ⟨"T", "O2"⟩]⟩⟩

/-- Two independent paths `I1 → O1` and `I2 → O2`.  `I2`'s file content is
empty, so its path fails at execution time although validation passes. -/
def wTwoPath : Workflow := ⟨⟨
  [⟨"I1", "input", csvData "a\n1"⟩,
   ⟨"O1", "output", emptyData⟩,
   ⟨"I2", "input", ⟨some ⟨"in.csv", "", "csv"⟩, "", "", "", ""⟩⟩,
   ⟨"O2", "output", emptyData⟩],
  [⟨"I1", "O1"⟩, ⟨"I2", "O2"⟩]⟩⟩

/-- Shape of the node list `traverse` appends when walking backward from
`v`: either nothing, or the node of `v` followed by a backward chain from
the source of one incoming edge of `v`. -/
inductive BackChain (w : Workflow) : String → List WorkflowNode → Prop where
  | nil (v : String) : BackChain w v []
  | single (v : String) (n : WorkflowNode)
      (h : findNode w v = some n) : BackChain w v [n]
  | cons (v : String) (n : WorkflowNode) (u : String)
      (rest : List WorkflowNode) (h : findNode w v = some n)
      (he : edgeRel w u v) (hr : BackChain w u rest) :
      BackChain w v (n :: rest)

/-!
# Theorems

## Soundness of the cycle detector

A `false` result of the three-colour DFS certifies that no directed cycle
passes through any blackened node; since the driver blackens every node id
and every edge endpoint is a node id, a `false` result of
`hasCircularDependencies` certifies acyclicity of the whole edge relation.
(The fuel-exhaustion branch returns `true`, so a `false` result always
comes from a complete run.)
-/

theorem reach_mem_of_closed (adj : String → List String)
    (B : Finset String)
    (hcl : ∀ x ∈ B, ∀ y, AdjRel adj x y → y ∈ B)
    {x y : String} (hx : x ∈ B)
    (h : Relation.ReflTransGen (AdjRel adj) x y) : y ∈ B := by
  induction h with
  | refl => exact hx
  | tail _ hbc ih => exact hcl _ ih _ hbc

theorem dfs_fold_frozen (adj : String → List String) (fuel : Nat)
    (gray' : Finset String) :
    ∀ (L : List String) (b : Finset String),
      L.foldl
        (fun acc n =>
          if acc.1 then acc
          else detectCycleDFS adj fuel n gray' acc.2)
        (true, b) = (true, b) := by
  intro L
  induction L with
  | nil => intro b; rfl
  | cons n L ih =>
      intro b
      simpa using ih b

theorem dfs_fold_sound (adj : String → List String) (fuel : Nat)
    (gray' : Finset String)
    (IH : ∀ (v : String) (gray black : Finset String),
      DfsInv adj gray black →
      (detectCycleDFS adj fuel v gray black).1 = false →
      black ⊆ (detectCycleDFS adj fuel v gray black).2 ∧
      v ∈ (detectCycleDFS adj fuel v gray black).2 ∧
      DfsInv adj gray (detectCycleDFS adj fuel v gray black).2) :
    ∀ (L : List String) (black : Finset String), DfsInv adj gray' black →
      (L.foldl
        (fun acc n =>
          if acc.1 then acc
          else detectCycleDFS adj fuel n gray' acc.2)
        (false, black)).1 = false →
      black ⊆ (L.foldl
        (fun acc n =>
          if acc.1 then acc
          else detectCycleDFS adj fuel n gray' acc.2)
        (false, black)).2 ∧
      (∀ n ∈ L, n ∈ (L.foldl
        (fun acc n =>
          if acc.1 then acc
          else detectCycleDFS adj fuel n gray' acc.2)
        (false, black)).2) ∧
      DfsInv adj gray' (L.foldl
        (fun acc n =>
          if acc.1 then acc
          else detectCycleDFS adj fuel n gray' acc.2)
        (false, black)).2 := by
  intro L
  induction L with
  | nil =>
      intro black hInv _
      exact ⟨Finset.Subset.refl _, by simp, hInv⟩
  | cons n L ih =>
      intro black hInv hfold
      rw [List.foldl_cons] at hfold ⊢
      have hstep : (if (false, black).1 then (false, black)
          else detectCycleDFS adj fuel n gray' (false, black).2) =
          detectCycleDFS adj fuel n gray' black := by simp
      rw [hstep] at hfold ⊢
      rcases hd : (detectCycleDFS adj fuel n gray' black).1 with _ | _
      · -- the call returned false
        have hsplit : detectCycleDFS adj fuel n gray' black =
            (false, (detectCycleDFS adj fuel n gray' black).2) := by
          rw [Prod.ext_iff]
          exact ⟨hd, rfl⟩
        obtain ⟨hsub, hmem, hInv'⟩ := IH n gray' black hInv hd
        rw [hsplit] at hfold ⊢
        obtain ⟨hsub2, hmem2, hInv2⟩ := ih _ hInv' hfold
        refine ⟨hsub.trans hsub2, ?_, hInv2⟩
        intro m hm
        rcases List.mem_cons.mp hm with rfl | hm
        · exact hsub2 hmem
        · exact hmem2 m hm
      · -- the call returned true: the rest of the fold is frozen
        have hsplit : detectCycleDFS adj fuel n gray' black =
            (true, (detectCycleDFS adj fuel n gray' black).2) := by
          rw [Prod.ext_iff]
          exact ⟨hd, rfl⟩
        rw [hsplit, dfs_fold_frozen] at hfold
        simp at hfold

theorem detectCycleDFS_sound (adj : String → List String) :
    ∀ (fuel : Nat) (v : String) (gray black : Finset String),
      DfsInv adj gray black →
      (detectCycleDFS adj fuel v gray black).1 = false →
      black ⊆ (detectCycleDFS adj fuel v gray black).2 ∧
      v ∈ (detectCycleDFS adj fuel v gray black).2 ∧
      DfsInv adj gray (detectCycleDFS adj fuel v gray black).2 := by
  intro fuel
  induction fuel with
  | zero =>
      intro v gray black _ hfalse
      simp [detectCycleDFS] at hfalse
  | succ fuel ih =>
      intro v gray black hInv hfalse
      by_cases hg : v ∈ gray
      · simp [detectCycleDFS, hg] at hfalse
      · by_cases hb : v ∈ black
        · simp only [detectCycleDFS, if_neg hg, if_pos hb]
          simp only [detectCycleDFS, if_neg hg, if_pos hb] at hfalse ⊢
          exact ⟨Finset.Subset.refl _, hb, hInv⟩
        · have hInv' : DfsInv adj (insert v gray) black := by
            refine ⟨?_, hInv.2.1, hInv.2.2⟩
            intro y hy
            rcases Finset.mem_insert.mp hy with rfl | hy
            · exact hb
            · exact hInv.1 y hy
          rcases hres : ((adj v).foldl
              (fun acc n =>
                if acc.1 then acc
                else detectCycleDFS adj fuel n (insert v gray) acc.2)
              (false, black)).1 with _ | _
          · -- fold returned false: blacken v
            obtain ⟨hsub, hnbrs, hInvF⟩ :=
              dfs_fold_sound adj fuel (insert v gray) ih (adj v) black
                hInv' hres
            have hval : detectCycleDFS adj (fuel + 1) v gray black =
                (false, insert v ((adj v).foldl
                  (fun acc n =>
                    if acc.1 then acc
                    else detectCycleDFS adj fuel n (insert v gray) acc.2)
                  (false, black)).2) := by
              simp only [detectCycleDFS, if_neg hg, if_neg hb]
              rw [hres]
              simp
            rw [hval]
            set B := ((adj v).foldl
              (fun acc n =>
                if acc.1 then acc
                else detectCycleDFS adj fuel n (insert v gray) acc.2)
              (false, black)).2 with hB
            have hvB : v ∉ B := hInvF.1 v (Finset.mem_insert_self v gray)
            refine ⟨hsub.trans (Finset.subset_insert v B),
              Finset.mem_insert_self v B, ?_, ?_, ?_⟩
            · -- gray and insert v B disjoint
              intro y hy hmem
              rcases Finset.mem_insert.mp hmem with rfl | hmem
              · exact hg hy
              · exact hInvF.1 y (Finset.mem_insert_of_mem hy) hmem
            · -- closure
              intro x hx y hxy
              rcases Finset.mem_insert.mp hx with rfl | hx
              · exact Finset.mem_insert_of_mem (hnbrs y hxy)
              · exact Finset.mem_insert_of_mem (hInvF.2.1 x hx y hxy)
            · -- no cycle through insert v B
              intro x hx hcyc
              rcases Finset.mem_insert.mp hx with rfl | hx
              · obtain ⟨n, hxn, hnx⟩ :=
                  Relation.TransGen.head'_iff.mp hcyc
                exact hvB (reach_mem_of_closed adj B hInvF.2.1
                  (hnbrs n hxn) hnx)
              · exact hInvF.2.2 x hx hcyc
          · -- fold returned true: overall result true, contradiction
            simp only [detectCycleDFS, if_neg hg, if_neg hb] at hfalse
            rw [hres] at hfalse
            simp at hfalse

theorem hasCircular_fold_frozen (w : Workflow) (fuel : Nat) :
    ∀ (L : List WorkflowNode) (b : Finset String),
      L.foldl
        (fun acc node =>
          if acc.1 then acc
          else if node._id ∈ acc.2 then acc
          else detectCycleDFS (adjListOf w) fuel node._id ∅ acc.2)
        (true, b) = (true, b) := by
  intro L
  induction L with
  | nil => intro b; rfl
  | cons n L ih =>
      intro b
      simpa using ih b

theorem hasCircular_fold_sound (w : Workflow) (fuel : Nat) :
    ∀ (L : List WorkflowNode) (black : Finset String),
      DfsInv (adjListOf w) ∅ black →
      (L.foldl
        (fun acc node =>
          if acc.1 then acc
          else if node._id ∈ acc.2 then acc
          else detectCycleDFS (adjListOf w) fuel node._id ∅ acc.2)
        (false, black)).1 = false →
      black ⊆ (L.foldl
        (fun acc node =>
          if acc.1 then acc
          else if node._id ∈ acc.2 then acc
          else detectCycleDFS (adjListOf w) fuel node._id ∅ acc.2)
        (false, black)).2 ∧
      (∀ node ∈ L, node._id ∈ (L.foldl
        (fun acc node =>
          if acc.1 then acc
          else if node._id ∈ acc.2 then acc
          else detectCycleDFS (adjListOf w) fuel node._id ∅ acc.2)
        (false, black)).2) ∧
      DfsInv (adjListOf w) ∅ (L.foldl
        (fun acc node =>
          if acc.1 then acc
          else if node._id ∈ acc.2 then acc
          else detectCycleDFS (adjListOf w) fuel node._id ∅ acc.2)
        (false, black)).2 := by
  intro L
  induction L with
  | nil =>
      intro black hInv _
      exact ⟨Finset.Subset.refl _, by simp, hInv⟩
  | cons n L ih =>
      intro black hInv hfold
      rw [List.foldl_cons] at hfold ⊢
      by_cases hn : n._id ∈ black
      · have hstep : (if (false, black).1 then (false, black)
            else if n._id ∈ (false, black).2 then (false, black)
            else detectCycleDFS (adjListOf w) fuel n._id ∅
              (false, black).2) = (false, black) := by
          simp [hn]
        rw [hstep] at hfold ⊢
        obtain ⟨hsub, hmem, hInv'⟩ := ih black hInv hfold
        refine ⟨hsub, ?_, hInv'⟩
        intro m hm
        rcases List.mem_cons.mp hm with rfl | hm
        · exact hsub hn
        · exact hmem m hm
      · have hstep : (if (false, black).1 then (false, black)
            else if n._id ∈ (false, black).2 then (false, black)
            else detectCycleDFS (adjListOf w) fuel n._id ∅
              (false, black).2) =
            detectCycleDFS (adjListOf w) fuel n._id ∅ black := by
          simp [hn]
        rw [hstep] at hfold ⊢
        rcases hd : (detectCycleDFS (adjListOf w) fuel n._id ∅ black).1
            with _ | _
        · have hsplit : detectCycleDFS (adjListOf w) fuel n._id ∅ black =
              (false,
                (detectCycleDFS (adjListOf w) fuel n._id ∅ black).2) := by
            rw [Prod.ext_iff]
            exact ⟨hd, rfl⟩
          obtain ⟨hsub, hmem, hInv'⟩ :=
            detectCycleDFS_sound (adjListOf w) fuel n._id ∅ black hInv hd
          rw [hsplit] at hfold ⊢
          obtain ⟨hsub2, hmem2, hInv2⟩ := ih _ hInv' hfold
          refine ⟨hsub.trans hsub2, ?_, hInv2⟩
          intro m hm
          rcases List.mem_cons.mp hm with rfl | hm
          · exact hsub2 hmem
          · exact hmem2 m hm
        · have hsplit : detectCycleDFS (adjListOf w) fuel n._id ∅ black =
              (true,
                (detectCycleDFS (adjListOf w) fuel n._id ∅ black).2) := by
            rw [Prod.ext_iff]
            exact ⟨hd, rfl⟩
          rw [hsplit, hasCircular_fold_frozen] at hfold
          simp at hfold

theorem adjRel_iff (w : Workflow) (s t : String) :
    AdjRel (adjListOf w) s t ↔ edgeRel w s t := by
  unfold AdjRel adjListOf edgeRel
  simp only [List.mem_map, List.mem_filter, decide_eq_true_eq]
  constructor
  · rintro ⟨e, ⟨he, hs⟩, ht⟩
    exact ⟨e, he, hs, ht⟩
  · rintro ⟨e, he, hs, ht⟩
    exact ⟨e, ⟨he, hs⟩, ht⟩

theorem hasCircularDependencies_sound (w : Workflow) (hep : edgesClosed w)
    (h : hasCircularDependencies w = false) : ¬ hasCycleProp w := by
  unfold hasCircularDependencies at h
  have hInv0 : DfsInv (adjListOf w) ∅ ∅ := by
    refine ⟨?_, ?_, ?_⟩ <;> simp
  obtain ⟨-, hmem, hInv⟩ := hasCircular_fold_sound w
    (w.definition.nodes.length + 1) w.definition.nodes ∅ hInv0 h
  rintro ⟨a, hcyc⟩
  have hcyc' : Relation.TransGen (AdjRel (adjListOf w)) a a :=
    Relation.TransGen.mono (fun x y hxy => (adjRel_iff w x y).mpr hxy) hcyc
  have ha : a ∈ nodeIds w := by
    obtain ⟨b, hab, -⟩ := Relation.TransGen.head'_iff.mp hcyc
    obtain ⟨e, he, hs, -⟩ := hab
    have := (hep e he).1
    rwa [hs] at this
  obtain ⟨node, hnode, hid⟩ := List.mem_map.mp ha
  have hmemB := hmem node hnode
  rw [hid] at hmemB
  exact hInv.2.2 a hmemB hcyc'

/-!
## C3 — cycle detection versus the validation check order
-/

/-- C3 (counterexample): a graph whose edge relation contains a directed
cycle but which has no input node fails validation with the missing-input
reason, not the cyclic-graph reason — `validateWorkflow` checks the
existence of input and output nodes before it looks for cycles. -/
theorem C3_counterexample :
    hasCycleProp wCycNoInput ∧
    (validateWorkflow wCycNoInput).valid = false ∧
    (validateWorkflow wCycNoInput).error ≠ some cyclicError ∧
    (validateWorkflow wCycNoInput).error =
      some "Workflow must have at least one input node" := by
  have hAB : edgeRel wCycNoInput "A" "B" :=
    ⟨⟨"A", "B"⟩, by decide, rfl, rfl⟩
  have hBA : edgeRel wCycNoInput "B" "A" :=
    ⟨⟨"B", "A"⟩, by decide, rfl, rfl⟩
  refine ⟨⟨"A", Relation.TransGen.head hAB
    (Relation.TransGen.single hBA)⟩, ?_, ?_, ?_⟩ <;>
    with_unfolding_all decide

/-- C3 (amended): for every graph that has at least one input node and at
least one output node and whose (well-formed) edge relation contains a
directed cycle, `validateWorkflow` returns invalid with the
circular-dependencies reason. -/
theorem C3_validateWorkflow_cyclic (w : Workflow)
    (hin : (w.definition.nodes.filter (fun n => n.type = "input")).length
      ≠ 0)
    (hout : (w.definition.nodes.filter (fun n => n.type = "output")).length
      ≠ 0)
    (hep : edgesClosed w)
    (hcyc : hasCycleProp w) :
    validateWorkflow w = ⟨false, some cyclicError⟩ := by
  have hcirc : hasCircularDependencies w = true := by
    rcases hb : hasCircularDependencies w with _ | _
    · exact absurd hcyc (hasCircularDependencies_sound w hep hb)
    · rfl
  unfold validateWorkflow
  rw [if_neg hin, if_neg hout, if_pos hcirc]

/-- C3 (witness): on a concrete graph with an input, an output and the
cycle `A ⇄ B`, the amended theorem applies and validation reports the
cyclic-graph reason. -/
theorem C3_witness :
    hasCycleProp wCyc ∧
    validateWorkflow wCyc = ⟨false, some cyclicError⟩ := by
  have hAB : edgeRel wCyc "A" "B" := ⟨⟨"A", "B"⟩, by decide, rfl, rfl⟩
  have hBA : edgeRel wCyc "B" "A" := ⟨⟨"B", "A"⟩, by decide, rfl, rfl⟩
  have hcyc : hasCycleProp wCyc :=
    ⟨"A", Relation.TransGen.head hAB (Relation.TransGen.single hBA)⟩
  exact ⟨hcyc, C3_validateWorkflow_cyclic wCyc (by decide) (by decide)
    (by decide) hcyc⟩

/-!
## C5 — correctness of `determineExecutionOrder` (Kahn's algorithm)
-/

theorem length_filter_split {α : Type} (l : List α) (p q : α → Bool) :
    (l.filter p).length =
      (l.filter (fun e => p e && q e)).length +
      (l.filter (fun e => p e && ! q e)).length := by
  induction l with
  | nil => rfl
  | cons e l ih =>
      by_cases hp : p e <;> by_cases hq : q e <;>
        simp [List.filter_cons, hp, hq, ih] <;> omega

theorem count_adjListOf (w : Workflow) (cur v : String) :
    ((adjListOf w cur).count v : Int) =
      ((w.definition.edges.filter
        (fun e => e.source = cur ∧ e.target = v)).length : Int) := by
  unfold adjListOf
  congr 1
  induction w.definition.edges with
  | nil => rfl
  | cons e l ih =>
      by_cases hs : e.source = cur <;> by_cases ht : e.target = v <;>
        simp [List.filter_cons, hs, ht, List.count_cons, ih]

theorem inDegreeInit_eq (w : Workflow) (v : String) :
    inDegreeInit w v =
      ((w.definition.edges.filter (fun e => e.target = v)).length : Int) := by
  unfold inDegreeInit
  have key : ∀ (l : List WorkflowEdge) (f₀ : String → Int),
      (l.foldl (fun f e => Function.update f e.target (f e.target + 1)) f₀)
        v = f₀ v + ((l.filter (fun e => e.target = v)).length : Int) := by
    intro l
    induction l with
    | nil => intro f₀; simp
    | cons e l ih =>
        intro f₀
        rw [List.foldl_cons, ih]
        by_cases ht : e.target = v
        · subst ht
          simp [List.filter_cons, Function.update]
          omega
        · have hne : v ≠ e.target := fun h => ht h.symm
          simp [List.filter_cons, ht, Function.update_apply, hne]
  rw [key]
  simp

theorem nodup_get?_indexOf {l : List String} (hnd : l.Nodup) {i : Nat}
    {a : String} (h : l.get? i = some a) : l.indexOf a = i := by
  induction l generalizing i with
  | nil => simp at h
  | cons b l ih =>
      rcases i with _ | i
      · have hb : b = a := Option.some.inj h
        subst hb
        simp [List.indexOf_cons_self]
      · have h' : l.get? i = some a := h
        have hne : b ≠ a := by
          intro hba
          subst hba
          exact (List.nodup_cons.mp hnd).1 (List.get?_mem h')
        rw [List.indexOf_cons_ne _ (by simpa using hne)]
        rw [ih (List.nodup_cons.mp hnd).2 h']

theorem cycle_of_pred (w : Workflow) (S : Finset String)
    (hne : S.Nonempty)
    (hpred : ∀ v ∈ S, ∃ u ∈ S, edgeRel w u v) : hasCycleProp w := by
  classical
  obtain ⟨x₀, hx₀⟩ := hne
  have hf : ∀ v : {x // x ∈ S}, ∃ u : {x // x ∈ S},
      edgeRel w u.val v.val := by
    rintro ⟨v, hv⟩
    obtain ⟨u, hu, hedge⟩ := hpred v hv
    exact ⟨⟨u, hu⟩, hedge⟩
  choose f hfe using hf
  let g : Nat → {x // x ∈ S} := fun n => f^[n] ⟨x₀, hx₀⟩
  have hstep : ∀ n, edgeRel w (g (n + 1)).val (g n).val := by
    intro n
    have : g (n + 1) = f (g n) := Function.iterate_succ_apply' f n _
    rw [this]
    exact hfe (g n)
  have hchain : ∀ k i, Relation.TransGen (edgeRel w)
      (g (i + k + 1)).val (g i).val := by
    intro k
    induction k with
    | zero => intro i; exact Relation.TransGen.single (hstep i)
    | succ k ih =>
        intro i
        exact Relation.TransGen.head (hstep (i + k + 1)) (ih i)
  have : ∃ m n, m ≠ n ∧ g m = g n :=
    Finite.exists_ne_map_eq_of_infinite g
  obtain ⟨m, n, hmn, heq⟩ := this
  rcases Nat.lt_or_ge m n with hlt | hge
  · refine ⟨(g m).val, ?_⟩
    have hch := hchain (n - m - 1) m
    have harg : m + (n - m - 1) + 1 = n := by omega
    rw [harg, ← heq] at hch
    exact hch
  · have hlt : n < m := by omega
    refine ⟨(g n).val, ?_⟩
    have hch := hchain (m - n - 1) n
    have harg : n + (m - n - 1) + 1 = m := by omega
    rw [harg, heq] at hch
    exact hch

theorem count_cons_int (n x : String) (L : List String) :
    (((n :: L).count x : Nat) : Int) =
      (L.count x : Int) + (if n = x then 1 else 0) := by
  by_cases h : n = x <;> simp [List.count_cons, h]

theorem count_mem_of_int_pos {x : String} {L : List String}
    (h : (L.count x : Int) ≠ 0) : x ∈ L := by
  have hne : L.count x ≠ 0 := fun h0 => h (by exact_mod_cast h0)
  exact List.count_pos_iff.mp (Nat.pos_of_ne_zero hne)

theorem count_int_pos_of_mem {x : String} {L : List String}
    (h : x ∈ L) : 1 ≤ (L.count x : Int) := by
  exact_mod_cast List.count_pos_iff.mpr h

theorem kahnRelax_go (L : List String) :
    ∀ (deg : String → Int) (acc : List String),
      (∀ v, (L.count v : Int) ≤ deg v) →
      acc.Nodup →
      (∀ m ∈ acc, ¬ (m ∈ L ∧ deg m = (L.count m : Int))) →
      (∀ v, (L.foldl (fun (acc : List String × (String → Int)) n =>
        ((if acc.2 n - 1 = 0 then acc.1 ++ [n] else acc.1),
          Function.update acc.2 n (acc.2 n - 1))) (acc, deg)).2 v =
        deg v - (L.count v : Int)) ∧
      (∀ x, x ∈ (L.foldl (fun (acc : List String × (String → Int)) n =>
        ((if acc.2 n - 1 = 0 then acc.1 ++ [n] else acc.1),
          Function.update acc.2 n (acc.2 n - 1))) (acc, deg)).1 ↔
        x ∈ acc ∨ (x ∈ L ∧ deg x = (L.count x : Int))) ∧
      (L.foldl (fun (acc : List String × (String → Int)) n =>
        ((if acc.2 n - 1 = 0 then acc.1 ++ [n] else acc.1),
          Function.update acc.2 n (acc.2 n - 1))) (acc, deg)).1.Nodup := by
  induction L with
  | nil =>
      intro deg acc _ hnd _
      refine ⟨fun v => by simp, fun x => by simp, hnd⟩
  | cons n L' ih =>
      intro deg acc hc hnd hdisj
      rw [List.foldl_cons]
      have hcount_n : (L'.count n : Int) + 1 ≤ deg n := by
        have hn := hc n
        rw [count_cons_int, if_pos rfl] at hn
        omega
      have hcount_ne : ∀ x, x ≠ n → (L'.count x : Int) ≤ deg x := by
        intro x hx
        have hn := hc x
        rw [count_cons_int, if_neg (fun h : n = x => hx h.symm)] at hn
        omega
      set acc' := if deg n - 1 = 0 then acc ++ [n] else acc with hacc'
      set deg' := Function.update deg n (deg n - 1) with hdeg'
      have hdeg'_apply : ∀ v, deg' v = if v = n then deg n - 1 else deg v :=
        fun v => Function.update_apply deg n (deg n - 1) v
      have hc' : ∀ v, (L'.count v : Int) ≤ deg' v := by
        intro v
        rw [hdeg'_apply]
        by_cases hv : v = n
        · subst hv
          rw [if_pos rfl]
          omega
        · rw [if_neg hv]
          exact hcount_ne v hv
      have hmem_acc' : ∀ x, x ∈ acc' ↔
          x ∈ acc ∨ (deg n - 1 = 0 ∧ x = n) := by
        intro x
        rw [hacc']
        by_cases hd : deg n - 1 = 0
        · simp only [if_pos hd, List.mem_append, List.mem_singleton]
          tauto
        · simp only [if_neg hd]
          tauto
      have hnd' : acc'.Nodup := by
        rw [hacc']
        by_cases hd : deg n - 1 = 0
        · simp only [if_pos hd]
          rw [List.nodup_append]
          refine ⟨hnd, List.nodup_singleton n, ?_⟩
          intro a ha hb
          simp only [List.mem_singleton] at hb
          subst hb
          refine hdisj a ha ⟨List.mem_cons_self _ _, ?_⟩
          rw [count_cons_int, if_pos rfl]
          omega
        · simp only [if_neg hd]
          exact hnd
      have hdisj' : ∀ m ∈ acc', ¬ (m ∈ L' ∧ deg' m = (L'.count m : Int))
          := by
        intro m hm hbad
        obtain ⟨hmL, hmdeg⟩ := hbad
        rw [hdeg'_apply] at hmdeg
        rcases (hmem_acc' m).mp hm with hma | ⟨hd, hmn⟩
        · by_cases hmn : m = n
          · subst hmn
            rw [if_pos rfl] at hmdeg
            refine hdisj m hma ⟨List.mem_cons_self _ _, ?_⟩
            rw [count_cons_int, if_pos rfl]
            omega
          · rw [if_neg hmn] at hmdeg
            refine hdisj m hma ⟨List.mem_cons_of_mem _ hmL, ?_⟩
            rw [count_cons_int, if_neg (fun h : n = m => hmn h.symm)]
            omega
        · subst hmn
          rw [if_pos rfl] at hmdeg
          have := count_int_pos_of_mem hmL
          omega
      obtain ⟨ha, hb, hcnd⟩ := ih deg' acc' hc' hnd' hdisj'
      refine ⟨?_, ?_, hcnd⟩
      · intro v
        rw [ha v, hdeg'_apply, count_cons_int]
        by_cases hv : v = n
        · subst hv
          rw [if_pos rfl, if_pos rfl]
          omega
        · rw [if_neg hv, if_neg (fun h : n = v => hv h.symm)]
          omega
      · intro x
        rw [hb x, hmem_acc' x]
        by_cases hx : x = n
        · subst hx
          constructor
          · rintro ((hA | ⟨hd, -⟩) | ⟨hxL, hxdeg⟩)
            · exact Or.inl hA
            · refine Or.inr ⟨List.mem_cons_self _ _, ?_⟩
              rw [count_cons_int, if_pos rfl]
              omega
            · rw [hdeg'_apply, if_pos rfl] at hxdeg
              refine Or.inr ⟨List.mem_cons_self _ _, ?_⟩
              rw [count_cons_int, if_pos rfl]
              omega
          · rintro (hA | ⟨-, hxdeg⟩)
            · exact Or.inl (Or.inl hA)
            · rw [count_cons_int, if_pos rfl] at hxdeg
              by_cases hL0 : (L'.count x : Int) = 0
              · exact Or.inl (Or.inr ⟨by omega, rfl⟩)
              · refine Or.inr ⟨count_mem_of_int_pos hL0, ?_⟩
                rw [hdeg'_apply, if_pos rfl]
                omega
        · constructor
          · rintro ((hA | ⟨-, hxn⟩) | ⟨hxL, hxdeg⟩)
            · exact Or.inl hA
            · exact absurd hxn hx
            · rw [hdeg'_apply, if_neg hx] at hxdeg
              refine Or.inr ⟨List.mem_cons_of_mem _ hxL, ?_⟩
              rw [count_cons_int, if_neg (fun h : n = x => hx h.symm)]
              omega
          · rintro (hA | ⟨hxL, hxdeg⟩)
            · exact Or.inl (Or.inl hA)
            · rcases List.mem_cons.mp hxL with hxn | hxL'
              · exact absurd hxn hx
              · refine Or.inr ⟨hxL', ?_⟩
                rw [hdeg'_apply, if_neg hx]
                rw [count_cons_int,
                  if_neg (fun h : n = x => hx h.symm)] at hxdeg
                omega

theorem kahnRelax_spec (L : List String) (deg : String → Int)
    (hc : ∀ v, (L.count v : Int) ≤ deg v) :
    (∀ v, (kahnRelax L deg).2 v = deg v - (L.count v : Int)) ∧
    (∀ x, x ∈ (kahnRelax L deg).1 ↔
      x ∈ L ∧ deg x = (L.count x : Int)) ∧
    (kahnRelax L deg).1.Nodup := by
  have heq : kahnRelax L deg =
      L.foldl (fun (acc : List String × (String → Int)) n =>
        ((if acc.2 n - 1 = 0 then acc.1 ++ [n] else acc.1),
          Function.update acc.2 n (acc.2 n - 1))) ([], deg) := rfl
  obtain ⟨ha, hb, hnd⟩ := kahnRelax_go L deg [] hc List.nodup_nil
    (by simp)
  rw [heq]
  refine ⟨ha, ?_, hnd⟩
  intro x
  rw [hb x]
  simp

theorem length_filter_le_filter {α : Type} (l : List α) (p q : α → Bool)
    (h : ∀ e ∈ l, p e = true → q e = true) :
    (l.filter p).length ≤ (l.filter q).length := by
  induction l with
  | nil => simp
  | cons e l ih =>
      have ih' := ih (fun x hx hp => h x (List.mem_cons_of_mem _ hx) hp)
      by_cases hp : p e = true
      · have hq := h e (List.mem_cons_self _ _) hp
        simp [List.filter_cons, hp, hq]
        omega
      · have hp' : p e = false := by
          rcases hpe : p e with _ | _
          · rfl
          · exact absurd hpe hp
        by_cases hq : q e = true
        · simp [List.filter_cons, hp', hq]
          omega
        · have hq' : q e = false := by
            rcases hqe : q e with _ | _
            · rfl
            · exact absurd hqe hq
          simp [List.filter_cons, hp', hq']
          omega

theorem kahnLoop_spec (w : Workflow) (hep : edgesClosed w) :
    ∀ (fuel : Nat) (queue order : List String) (deg : String → Int),
      KahnInv w queue order deg →
      (nodeIds w).length ≤ fuel + order.length →
      (kahnLoop (adjListOf w) fuel queue order deg).Nodup ∧
      (∀ x ∈ kahnLoop (adjListOf w) fuel queue order deg, x ∈ nodeIds w) ∧
      (∀ e ∈ w.definition.edges,
        e.target ∈ kahnLoop (adjListOf w) fuel queue order deg →
        ∃ i j, i < j ∧
          (kahnLoop (adjListOf w) fuel queue order deg).get? i =
            some e.source ∧
          (kahnLoop (adjListOf w) fuel queue order deg).get? j =
            some e.target) ∧
      (¬ hasCycleProp w →
        ∀ x ∈ nodeIds w, x ∈ kahnLoop (adjListOf w) fuel queue order deg)
    := by
  -- the two terminating cases share this wrap-up for the emitted order
  have base : ∀ (queue order : List String) (deg : String → Int),
      KahnInv w queue order deg →
      order.Nodup ∧ (∀ x ∈ order, x ∈ nodeIds w) ∧
      (∀ e ∈ w.definition.edges, e.target ∈ order →
        ∃ i j, i < j ∧ order.get? i = some e.source ∧
          order.get? j = some e.target) := by
    intro queue order deg hInv
    obtain ⟨hI1, hI2, -, -, -, hI6⟩ := hInv
    exact ⟨(List.nodup_append.mp hI1).1,
      fun x hx => hI2 x (List.mem_append_left _ hx), hI6⟩
  intro fuel
  induction fuel with
  | zero =>
      intro queue order deg hInv hlen
      obtain ⟨hnd', hsub, hpairs⟩ := base queue order deg hInv
      refine ⟨hnd', hsub, hpairs, ?_⟩
      intro _ x hx
      have hsperm : List.Subperm order (nodeIds w) := hnd'.subperm hsub
      have hperm : order.Perm (nodeIds w) :=
        hsperm.perm_of_length_le (by omega)
      exact hperm.mem_iff.mpr hx
  | succ fuel ih =>
      intro queue order deg hInv hlen
      rcases queue with _ | ⟨cur, rest⟩
      · -- queue empty: loop ends; a leftover node would give a cycle
        obtain ⟨hnd', hsub, hpairs⟩ := base [] order deg hInv
        obtain ⟨hI1, hI2, hI3, hI4, hI5, hI6⟩ := hInv
        refine ⟨hnd', hsub, hpairs, ?_⟩
        intro hacyc x hx
        by_contra hxord
        set S : Finset String :=
          ((nodeIds w).filter (fun v => v ∉ order)).toFinset with hS
        have hmemS : ∀ v, v ∈ S ↔ v ∈ nodeIds w ∧ v ∉ order := by
          intro v
          rw [hS]
          simp
        have hSne : S.Nonempty := ⟨x, (hmemS x).mpr ⟨hx, hxord⟩⟩
        have hpred : ∀ v ∈ S, ∃ u ∈ S, edgeRel w u v := by
          intro v hv
          obtain ⟨hvn, hvo⟩ := (hmemS v).mp hv
          have hdeg : deg v ≠ 0 := hI5 v hvn hvo (List.not_mem_nil v)
          rw [hI3 v] at hdeg
          have hpos : 0 < (w.definition.edges.filter
              (fun e => e.target = v ∧ e.source ∉ order)).length := by
            rcases Nat.eq_zero_or_pos (w.definition.edges.filter
              (fun e => e.target = v ∧ e.source ∉ order)).length with h0 | h0
            · exact absurd (by exact_mod_cast h0) hdeg
            · exact h0
          obtain ⟨e, he⟩ := List.exists_mem_of_length_pos hpos
          rw [List.mem_filter] at he
          obtain ⟨heE, hcond⟩ := he
          have hcond' : e.target = v ∧ e.source ∉ order := by
            simpa using hcond
          refine ⟨e.source, (hmemS e.source).mpr
            ⟨(hep e heE).1, hcond'.2⟩, e, heE, rfl, hcond'.1⟩
        exact hacyc (cycle_of_pred w S hSne hpred)
      · -- dequeue cur
        obtain ⟨hI1, hI2, hI3, hI4, hI5, hI6⟩ := hInv
        have hcur_node : cur ∈ nodeIds w :=
          hI2 cur (List.mem_append_right _ (List.mem_cons_self _ _))
        have hdisj := (List.nodup_append.mp hI1).2.2
        have hcur_not_order : cur ∉ order :=
          fun h => hdisj h (List.mem_cons_self _ _)
        -- the relaxation precondition: the degree of a target counts at
        -- least the parallel edges leaving cur
        have hc : ∀ v, (((adjListOf w cur).count v : Nat) : Int) ≤ deg v
            := by
          intro v
          rw [count_adjListOf, hI3 v]
          have := length_filter_le_filter w.definition.edges
            (fun e => e.source = cur ∧ e.target = v)
            (fun e => e.target = v ∧ e.source ∉ order)
            (by
              intro e _ hpe
              have hpe' : e.source = cur ∧ e.target = v :=
                of_decide_eq_true hpe
              apply decide_eq_true
              exact ⟨hpe'.2, hpe'.1 ▸ hcur_not_order⟩)
          exact_mod_cast this
        obtain ⟨hR1, hR2, hR3⟩ := kahnRelax_spec (adjListOf w cur) deg hc
        set s := kahnRelax (adjListOf w cur) deg with hs
        have hpush_edge : ∀ x ∈ s.1, edgeRel w cur x := by
          intro x hxs
          have := (hR2 x).mp hxs
          exact (adjRel_iff w cur x).mp this.1
        have hpush_fresh : ∀ x ∈ s.1, x ∉ order ∧ x ≠ cur ∧ x ∉ rest := by
          intro x hxs
          obtain ⟨e, heE, hsrc, htgt⟩ := hpush_edge x hxs
          refine ⟨?_, ?_, ?_⟩
          · intro hxo
            exact hcur_not_order (hsrc ▸ hI4 x
              (List.mem_append_left _ hxo) e heE htgt)
          · intro hxcur
            subst hxcur
            exact hcur_not_order (hsrc ▸ hI4 x
              (List.mem_append_right _ (List.mem_cons_self _ _)) e heE htgt)
          · intro hxr
            exact hcur_not_order (hsrc ▸ hI4 x
              (List.mem_append_right _ (List.mem_cons_of_mem _ hxr))
              e heE htgt)
        -- the degree identity for the new emitted list
        have hsplit : ∀ v,
            ((w.definition.edges.filter
              (fun e => e.target = v ∧ e.source ∉ order)).length : Int) =
            ((w.definition.edges.filter
              (fun e => e.source = cur ∧ e.target = v)).length : Int) +
            ((w.definition.edges.filter
              (fun e => e.target = v ∧
                e.source ∉ order ++ [cur])).length : Int) := by
          intro v
          have hsp := length_filter_split w.definition.edges
            (fun e => decide (e.target = v ∧ e.source ∉ order))
            (fun e => decide (e.source = cur))
          have hA : w.definition.edges.filter
              (fun e => decide (e.target = v ∧ e.source ∉ order) &&
                decide (e.source = cur)) =
              w.definition.edges.filter
                (fun e => e.source = cur ∧ e.target = v) := by
            refine List.filter_congr ?_
            intro e _
            by_cases h1 : e.source = cur
            · by_cases h2 : e.target = v
              · simp [h1, h2, hcur_not_order]
              · simp [h1, h2]
            · simp [h1]
          have hB : w.definition.edges.filter
              (fun e => decide (e.target = v ∧ e.source ∉ order) &&
                ! decide (e.source = cur)) =
              w.definition.edges.filter
                (fun e => e.target = v ∧ e.source ∉ order ++ [cur]) := by
            refine List.filter_congr ?_
            intro e _
            by_cases h2 : e.target = v
            · by_cases h1 : e.source = cur
              · simp [h1, h2, hcur_not_order]
              · by_cases h3 : e.source ∈ order
                · simp [h1, h2, h3]
                · simp [h1, h2, h3]
            · simp [h2]
          rw [hA, hB] at hsp
          exact_mod_cast hsp
        -- establish the invariant for the next state
        have hInv' : KahnInv w (rest ++ s.1) (order ++ [cur]) s.2 := by
          refine ⟨?_, ?_, ?_, ?_, ?_, ?_⟩
          · -- nodup
            have h0 : ((order ++ [cur]) ++ rest).Nodup := by
              rw [List.append_assoc]
              simpa using hI1
            rw [← List.append_assoc]
            rw [List.nodup_append]
            refine ⟨h0, hR3, ?_⟩
            intro a ha has
            obtain ⟨hno, hncur, hnrest⟩ := hpush_fresh a has
            rcases List.mem_append.mp ha with hao | har
            · rcases List.mem_append.mp hao with h | h
              · exact hno h
              · exact hncur (List.mem_singleton.mp h)
            · exact hnrest har
          · -- membership in nodeIds
            intro x hxm
            rcases List.mem_append.mp hxm with hxo | hxq
            · rcases List.mem_append.mp hxo with h | h
              · exact hI2 x (List.mem_append_left _ h)
              · rw [List.mem_singleton.mp h]
                exact hcur_node
            · rcases List.mem_append.mp hxq with h | h
              · exact hI2 x (List.mem_append_right _
                  (List.mem_cons_of_mem _ h))
              · obtain ⟨e, heE, -, htgt⟩ := hpush_edge x h
                exact htgt ▸ (hep e heE).2
          · -- degree identity
            intro v
            rw [hR1 v, hI3 v, count_adjListOf, hsplit v]
            omega
          · -- every incoming source of an emitted or queued id is emitted
            intro v hv e heE htgt
            rcases List.mem_append.mp hv with hvo | hvq
            · rcases List.mem_append.mp hvo with h | h
              · exact List.mem_append_left _
                  (hI4 v (List.mem_append_left _ h) e heE htgt)
              · have hveq : v = cur := List.mem_singleton.mp h
                subst hveq
                exact List.mem_append_left _ (hI4 v
                  (List.mem_append_right _ (List.mem_cons_self _ _))
                  e heE htgt)
            · rcases List.mem_append.mp hvq with h | h
              · exact List.mem_append_left _ (hI4 v
                  (List.mem_append_right _ (List.mem_cons_of_mem _ h))
                  e heE htgt)
              · -- v was just pushed: its remaining in-degree is zero
                have hv0 := (hR2 v).mp h
                have hzero : ((w.definition.edges.filter
                    (fun e => e.target = v ∧
                      e.source ∉ order ++ [cur])).length : Int) = 0 := by
                  have hd := hv0.2
                  rw [hI3 v] at hd
                  have hcnt := count_adjListOf w cur v
                  have := hsplit v
                  omega
                by_contra hsrc
                have hmem : e ∈ w.definition.edges.filter
                    (fun e => e.target = v ∧
                      e.source ∉ order ++ [cur]) := by
                  rw [List.mem_filter]
                  exact ⟨heE, by simp [htgt, hsrc]⟩
                have : 0 < (w.definition.edges.filter
                    (fun e => e.target = v ∧
                      e.source ∉ order ++ [cur])).length :=
                  List.length_pos.mpr (fun hnil => by
                    rw [hnil] at hmem
                    exact List.not_mem_nil e hmem)
                omega
          · -- unseen node ids keep nonzero degree
            intro v hvn hvo hvq
            intro h0
            rw [hR1 v] at h0
            by_cases hcnt : (((adjListOf w cur).count v : Nat) : Int) = 0
            · have hdv : deg v = 0 := by omega
              have hvo' : v ∉ order := fun h =>
                hvo (List.mem_append_left _ h)
              have hvq' : v ∉ cur :: rest := by
                intro h
                rcases List.mem_cons.mp h with h | h
                · exact hvo (List.mem_append_right _
                    (List.mem_singleton.mpr h))
                · exact hvq (List.mem_append_left _ h)
              exact hI5 v hvn hvo' hvq' hdv
            · have hvs : v ∈ s.1 := (hR2 v).mpr
                ⟨count_mem_of_int_pos hcnt, by omega⟩
              exact hvq (List.mem_append_right _ hvs)
          · -- emitted prefix stays topologically ordered
            intro e heE htgt
            rcases List.mem_append.mp htgt with hto | htc
            · obtain ⟨i, j, hij, hi, hj⟩ := hI6 e heE hto
              have hjlt : j < order.length := (List.get?_eq_some.mp hj).1
              have hilt : i < order.length := by omega
              exact ⟨i, j, hij, by rw [List.get?_append hilt]; exact hi,
                by rw [List.get?_append hjlt]; exact hj⟩
            · have htc' : e.target = cur := List.mem_singleton.mp htc
              have hsrc : e.source ∈ order := hI4 cur
                (List.mem_append_right _ (List.mem_cons_self _ _)) e heE htc'
              refine ⟨order.indexOf e.source, order.length,
                List.indexOf_lt_length.mpr hsrc, ?_, ?_⟩
              · rw [List.get?_append (List.indexOf_lt_length.mpr hsrc)]
                exact List.indexOf_get? hsrc
              · rw [List.get?_append_right (le_refl _)]
                simp [htc']
        have hunfold : kahnLoop (adjListOf w) (fuel + 1) (cur :: rest)
            order deg =
            kahnLoop (adjListOf w) fuel (rest ++ s.1) (order ++ [cur])
              s.2 := rfl
        rw [hunfold]
        refine ih (rest ++ s.1) (order ++ [cur]) s.2 hInv' ?_
        rw [List.length_append, List.length_singleton]
        omega

theorem validateWorkflow_valid_no_cycle (w : Workflow)
    (h : (validateWorkflow w).valid = true) :
    hasCircularDependencies w = false := by
  unfold validateWorkflow at h
  by_cases h1 : (w.definition.nodes.filter
      (fun n => n.type = "input")).length = 0
  · rw [if_pos h1] at h
    simp at h
  · rw [if_neg h1] at h
    by_cases h2 : (w.definition.nodes.filter
        (fun n => n.type = "output")).length = 0
    · rw [if_pos h2] at h
      simp at h
    · rw [if_neg h2] at h
      rcases h3 : hasCircularDependencies w with _ | _
      · rfl
      · rw [if_pos h3] at h
        simp at h

/-- C5: for every well-formed graph (unique node ids, edge endpoints
referencing nodes — the §3 data-model invariants) that passes validation,
`determineExecutionOrder` succeeds, its order is a permutation of the node
ids (every node id exactly once), and for every edge the source's index is
strictly below the target's index. -/
theorem C5_determineExecutionOrder_correct (w : Workflow)
    (hnd : (nodeIds w).Nodup) (hep : edgesClosed w)
    (hv : (validateWorkflow w).valid = true) :
    (determineExecutionOrder w).success = true ∧
    (determineExecutionOrder w).order.Perm (nodeIds w) ∧
    ∀ e ∈ w.definition.edges,
      (determineExecutionOrder w).order.indexOf e.source <
        (determineExecutionOrder w).order.indexOf e.target := by
  have hacyc : ¬ hasCycleProp w :=
    hasCircularDependencies_sound w hep (validateWorkflow_valid_no_cycle w hv)
  set deg := inDegreeInit w with hdeg
  set queue := (nodeIds w).filter (fun id => deg id = 0) with hqueue
  have hqmem : ∀ v, v ∈ queue ↔ v ∈ nodeIds w ∧ deg v = 0 := by
    intro v
    rw [hqueue]
    simp
  have hdeg0 : ∀ v, deg v = 0 →
      w.definition.edges.filter (fun e => e.target = v) = [] := by
    intro v h0
    rw [hdeg, inDegreeInit_eq] at h0
    have : (w.definition.edges.filter
        (fun e => e.target = v)).length = 0 := by exact_mod_cast h0
    exact List.length_eq_zero.mp this
  have hInv : KahnInv w queue [] deg := by
    refine ⟨?_, ?_, ?_, ?_, ?_, ?_⟩
    · simpa using List.Nodup.filter _ hnd
    · intro x hx
      simp only [List.nil_append] at hx
      exact ((hqmem x).mp hx).1
    · intro v
      rw [hdeg, inDegreeInit_eq]
      congr 2
      refine (List.filter_congr ?_).symm
      intro e _
      simp
    · intro v hv' e heE htgt
      simp only [List.nil_append] at hv'
      have h0 := ((hqmem v).mp hv').2
      have hnil := hdeg0 v h0
      have : e ∈ w.definition.edges.filter (fun e => e.target = v) :=
        List.mem_filter.mpr ⟨heE, by simp [htgt]⟩
      rw [hnil] at this
      exact absurd this (List.not_mem_nil e)
    · intro v hvn hvo hvq h0
      exact hvq ((hqmem v).mpr ⟨hvn, h0⟩)
    · intro e _ htgt
      exact absurd htgt (List.not_mem_nil _)
  have hlen : (nodeIds w).length ≤ w.definition.nodes.length +
      ([] : List String).length := by
    simp [nodeIds]
  obtain ⟨hrnd, hrsub, hrpairs, hrcompl⟩ :=
    kahnLoop_spec w hep w.definition.nodes.length queue [] deg hInv hlen
  set r := kahnLoop (adjListOf w) w.definition.nodes.length queue [] deg
    with hr
  have hall := hrcompl hacyc
  have hperm : r.Perm (nodeIds w) :=
    (List.perm_ext_iff_of_nodup hrnd hnd).mpr
      (fun a => ⟨fun h => hrsub a h, fun h => hall a h⟩)
  have hrlen : r.length = w.definition.nodes.length := by
    have := hperm.length_eq
    simpa [nodeIds] using this
  have hdet : determineExecutionOrder w = ⟨true, r, none⟩ := by
    have hzeta : determineExecutionOrder w =
        if (kahnLoop (adjListOf w) w.definition.nodes.length
            ((nodeIds w).filter (fun id => inDegreeInit w id = 0)) []
            (inDegreeInit w)).length ≠ w.definition.nodes.length then
          ⟨false, [], some
            "Cycle detected in workflow - cannot determine execution order"⟩
        else ⟨true, kahnLoop (adjListOf w) w.definition.nodes.length
            ((nodeIds w).filter (fun id => inDegreeInit w id = 0)) []
            (inDegreeInit w), none⟩ := rfl
    rw [hzeta, ← hdeg, ← hqueue, ← hr, if_neg (by omega)]
  rw [hdet]
  refine ⟨rfl, hperm, ?_⟩
  intro e heE
  have htr : e.target ∈ r := hall e.target (hep e heE).2
  obtain ⟨i, j, hij, hi, hj⟩ := hrpairs e heE htr
  rw [nodup_get?_indexOf hrnd hi, nodup_get?_indexOf hrnd hj]
  exact hij

/-- C5 (witness): the valid chain `I → T → O` instantiates the theorem; its
computed order is a permutation of the node ids and respects both edges. -/
theorem C5_witness :
    (determineExecutionOrder wChain).success = true ∧
    (determineExecutionOrder wChain).order.Perm (nodeIds wChain) ∧
    ∀ e ∈ wChain.definition.edges,
      (determineExecutionOrder wChain).order.indexOf e.source <
        (determineExecutionOrder wChain).order.indexOf e.target :=
  C5_determineExecutionOrder_correct wChain (by decide) (by decide)
    (by with_unfolding_all rfl)

/-!
## C1 — is the per-output upstream path topologically ordered?
-/

theorem findNode_id {w : Workflow} {v : String} {n : WorkflowNode}
    (h : findNode w v = some n) : n._id = v := by
  have := List.find?_some h
  exact of_decide_eq_true this

theorem len_le_one_mem_eq {α : Type} {l : List α} (h : l.length ≤ 1)
    {a b : α} (ha : a ∈ l) (hb : b ∈ l) : a = b := by
  rcases l with _ | ⟨x, rest⟩
  · exact absurd ha (List.not_mem_nil a)
  · rcases rest with _ | _
    · rw [List.mem_singleton.mp ha, List.mem_singleton.mp hb]
    · simp at h

theorem chain_head_id {w : Workflow} {u : String} {c : List WorkflowNode}
    (hch : BackChain w u c) : ∀ m, c.get? 0 = some m → m._id = u := by
  cases hch with
  | nil => intro m hm; simp at hm
  | single v n h =>
      intro m hm
      have : n = m := Option.some.inj hm
      rw [← this]
      exact findNode_id h
  | cons v n u' rest h he hr =>
      intro m hm
      have : n = m := Option.some.inj hm
      rw [← this]
      exact findNode_id h

theorem chain_get_edge {w : Workflow} {v : String} {c : List WorkflowNode}
    (hch : BackChain w v c) :
    ∀ i n m, c.get? i = some n → c.get? (i + 1) = some m →
      edgeRel w m._id n._id := by
  induction hch with
  | nil => intro i n m hn _; simp at hn
  | single v' n' h =>
      intro i n m hn hm
      rcases i with _ | i <;> simp at hm
  | cons v' n' u rest h he hr ih =>
      intro i n m hn hm
      rcases i with _ | i
      · have hn' : n' = n := Option.some.inj hn
        have hm' : rest.get? 0 = some m := hm
        rw [← hn', findNode_id h]
        rw [chain_head_id hr m hm']
        exact he
      · exact ih i n m hn hm

theorem chain_transGen {w : Workflow} {v : String} {c : List WorkflowNode}
    (hch : BackChain w v c) :
    ∀ (d j : Nat) (n m : WorkflowNode), c.get? (j + d + 1) = some n →
      c.get? j = some m →
      Relation.TransGen (edgeRel w) n._id m._id := by
  intro d
  induction d with
  | zero =>
      intro j n m hn hm
      exact Relation.TransGen.single (chain_get_edge hch j m n hm hn)
  | succ d ih =>
      intro j n m hn hm
      have hlt : j + d + 1 < c.length := by
        have := (List.get?_eq_some.mp hn).1
        omega
      obtain ⟨mid, hmid⟩ : ∃ a, c.get? (j + d + 1) = some a :=
        ⟨c.get ⟨j + d + 1, hlt⟩, List.get?_eq_get hlt⟩
      have hstep : edgeRel w n._id mid._id := by
        have hn' : c.get? ((j + d + 1) + 1) = some n := by
          have harg : (j + d + 1) + 1 = j + (d + 1) + 1 := by omega
          rw [harg]
          exact hn
        exact chain_get_edge hch (j + d + 1) mid n hmid hn'
      exact Relation.TransGen.head hstep (ih j mid m hmid hm)

theorem backChain_topological (w : Workflow) (hsp : singleParent w)
    (hacyc : ¬ hasCycleProp w) (v : String) (c : List WorkflowNode)
    (hch : BackChain w v c)
    (hnd : (c.map (fun n => n._id)).Nodup) :
    pathIsTopological w c.reverse := by
  intro e heE hsrc htgt
  rw [List.map_reverse] at hsrc htgt ⊢
  rw [List.mem_reverse] at hsrc htgt
  obtain ⟨i, hi⟩ := List.mem_iff_get?.mp htgt
  obtain ⟨j, hj⟩ := List.mem_iff_get?.mp hsrc
  have hilen : i < (c.map (fun n => n._id)).length :=
    (List.get?_eq_some.mp hi).1
  have hjlen : j < (c.map (fun n => n._id)).length :=
    (List.get?_eq_some.mp hj).1
  have hclen : (c.map (fun n => n._id)).length = c.length :=
    List.length_map _ _
  -- the node at position i and at position j
  obtain ⟨tn, htn⟩ : ∃ a, c.get? i = some a :=
    ⟨c.get ⟨i, by omega⟩, List.get?_eq_get (by omega)⟩
  obtain ⟨sn, hsn⟩ : ∃ a, c.get? j = some a :=
    ⟨c.get ⟨j, by omega⟩, List.get?_eq_get (by omega)⟩
  have htid : tn._id = e.target := by
    have : (c.map (fun n => n._id)).get? i = some tn._id := by
      rw [List.get?_map, htn]
      rfl
    rw [this] at hi
    exact Option.some.inj hi
  have hsid : sn._id = e.source := by
    have : (c.map (fun n => n._id)).get? j = some sn._id := by
      rw [List.get?_map, hsn]
      rfl
    rw [this] at hj
    exact Option.some.inj hj
  by_cases hlast : i + 1 < c.length
  · -- interior target: its unique incoming edge comes from the next
    -- chain element
    obtain ⟨mn, hmn⟩ : ∃ a, c.get? (i + 1) = some a :=
      ⟨c.get ⟨i + 1, hlast⟩, List.get?_eq_get hlast⟩
    have hchEdge : edgeRel w mn._id tn._id := chain_get_edge hch i tn mn htn hmn
    obtain ⟨e', he'E, he's, he't⟩ := hchEdge
    have huniq : e = e' := by
      refine len_le_one_mem_eq (hsp e.target) ?_ ?_
      · exact List.mem_filter.mpr ⟨heE, by simp⟩
      · refine List.mem_filter.mpr ⟨he'E, by simp [he't, htid]⟩
    have hsrc_eq : e.source = mn._id := by rw [huniq, he's]
    -- j is determined: the id at j equals the id at i+1, so j = i+1
    have hj' : (c.map (fun n => n._id)).get? (i + 1) = some e.source := by
      rw [List.get?_map, hmn]
      simp [hsrc_eq]
    have hjval : j = i + 1 := by
      have h1 := nodup_get?_indexOf hnd hj
      have h2 := nodup_get?_indexOf hnd hj'
      omega
    -- positions in the reversed sequence
    have hrev_i : ((c.map (fun n => n._id)).reverse).get?
        ((c.map (fun n => n._id)).length - 1 - i) = some e.target := by
      rw [List.get?_reverse (by omega)]
      have harg : (c.map (fun n => n._id)).length - 1 -
          ((c.map (fun n => n._id)).length - 1 - i) = i := by omega
      rw [harg]
      exact hi
    have hrev_j : ((c.map (fun n => n._id)).reverse).get?
        ((c.map (fun n => n._id)).length - 1 - j) = some e.source := by
      rw [List.get?_reverse (by omega)]
      have harg : (c.map (fun n => n._id)).length - 1 -
          ((c.map (fun n => n._id)).length - 1 - j) = j := by omega
      rw [harg]
      exact hj
    have hndrev : ((c.map (fun n => n._id)).reverse).Nodup :=
      List.nodup_reverse.mpr hnd
    rw [nodup_get?_indexOf hndrev hrev_j, nodup_get?_indexOf hndrev hrev_i]
    omega
  · -- the target is the chain's last element: an in-path edge into it
    -- closes a directed cycle
    exfalso
    have hieq : i = c.length - 1 := by omega
    have hji : j ≤ i := by omega
    rcases Nat.lt_or_ge j i with hjlt | hjge
    · -- e.source sits strictly earlier in the chain
      have hcyc : Relation.TransGen (edgeRel w) e.source e.source := by
        have hstep : edgeRel w e.source e.target :=
          ⟨e, heE, rfl, rfl⟩
        have hchain : Relation.TransGen (edgeRel w) tn._id sn._id := by
          have harg : j + (i - j - 1) + 1 = i := by omega
          exact chain_transGen hch (i - j - 1) j tn sn (by rw [harg]; exact htn)
            hsn
        rw [htid, hsid] at hchain
        exact Relation.TransGen.head hstep hchain
      exact hacyc ⟨e.source, hcyc⟩
    · -- j = i: a self-loop on the last element
      have hjeq : j = i := by omega
      rw [hjeq, htn] at hsn
      have hst : tn = sn := Option.some.inj hsn
      have hself : e.source = e.target := by
        rw [← hsid, ← htid, hst]
      have hcyc : Relation.TransGen (edgeRel w) e.source e.target :=
        Relation.TransGen.single ⟨e, heE, rfl, rfl⟩
      rw [← hself] at hcyc
      exact hacyc ⟨e.source, hcyc⟩

theorem traverse_chain (w : Workflow) (hsp : singleParent w) :
    ∀ (fuel : Nat) (v : String) (vis : Finset String)
      (path : List WorkflowNode),
      (∀ n ∈ path, n._id ∈ vis) →
      ((path.map (fun n => n._id)).Nodup) →
      ∃ ext, (traverse w fuel v vis path).2 = path ++ ext ∧
        BackChain w v ext ∧
        (((path ++ ext).map (fun n => n._id)).Nodup) ∧
        (∀ n ∈ path ++ ext, n._id ∈ (traverse w fuel v vis path).1) ∧
        vis ⊆ (traverse w fuel v vis path).1 := by
  intro fuel
  induction fuel with
  | zero =>
      intro v vis path hpv hnd
      exact ⟨[], by simp [traverse], BackChain.nil v, by simpa using hnd,
        by simpa [traverse] using hpv, by simp [traverse]⟩
  | succ fuel ih =>
      intro v vis path hpv hnd
      by_cases hvis : v ∈ vis
      · have hres : traverse w (fuel + 1) v vis path = (vis, path) := by
          rw [traverse, if_pos hvis]
        exact ⟨[], by rw [hres]; simp, BackChain.nil v, by simpa using hnd,
          by rw [hres]; simpa using hpv, by rw [hres]⟩
      · rcases hfind : findNode w v with _ | node
        · have hres : traverse w (fuel + 1) v vis path =
              (insert v vis, path) := by
            rw [traverse, if_neg hvis, hfind]
          refine ⟨[], by rw [hres]; simp, BackChain.nil v,
            by simpa using hnd,
            ?_, by rw [hres]; exact Finset.subset_insert v vis⟩
          rw [hres]
          intro n hn
          simp only [List.append_nil] at hn
          exact Finset.mem_insert_of_mem (hpv n hn)
        · have hid : node._id = v := findNode_id hfind
          have hres : traverse w (fuel + 1) v vis path =
              (w.definition.edges.filter (fun e => e.target = v)).foldl
                (fun acc e => traverse w fuel e.source acc.1 acc.2)
                (insert v vis, path ++ [node]) := by
            rw [traverse, if_neg hvis, hfind]
          have hnd' : ((path ++ [node]).map (fun n => n._id)).Nodup := by
            rw [List.map_append]
            rw [List.nodup_append]
            refine ⟨hnd, by simp, ?_⟩
            intro a ha hb
            simp only [List.map_cons, List.map_nil, List.mem_singleton]
              at hb
            obtain ⟨m, hm, hma⟩ := List.mem_map.mp ha
            rw [hb, hid] at hma
            exact hvis (hma ▸ hpv m hm)
          have hpv' : ∀ n ∈ path ++ [node], n._id ∈ insert v vis := by
            intro n hn
            rcases List.mem_append.mp hn with h | h
            · exact Finset.mem_insert_of_mem (hpv n h)
            · rw [List.mem_singleton.mp h, hid]
              exact Finset.mem_insert_self v vis
          rcases hE : w.definition.edges.filter (fun e => e.target = v)
              with _ | ⟨e, erest⟩
          · -- no incoming edge: the fold is empty
            rw [hE] at hres
            refine ⟨[node], by rw [hres]; simp, BackChain.single v node hfind,
              by simpa using hnd', by rw [hres]; exact hpv',
              by rw [hres]; exact Finset.subset_insert v vis⟩
          · -- at most one incoming edge: recurse into its source
            have herest : erest = [] := by
              have := hsp v
              rw [hE] at this
              simp at this
              exact this
            rw [herest] at hE
            rw [hE] at hres
            have heP : e ∈ w.definition.edges ∧ e.target = v := by
              have : e ∈ w.definition.edges.filter
                  (fun e => e.target = v) := by
                rw [hE]
                exact List.mem_singleton.mpr rfl
              rw [List.mem_filter] at this
              exact ⟨this.1, by simpa using this.2⟩
            have hfold : (([e] : List WorkflowEdge).foldl
                (fun acc e => traverse w fuel e.source acc.1 acc.2)
                (insert v vis, path ++ [node])) =
                traverse w fuel e.source (insert v vis) (path ++ [node])
                := rfl
            rw [hfold] at hres
            obtain ⟨ext', hext', hch', hnd'', hmem'', hsub''⟩ :=
              ih e.source (insert v vis) (path ++ [node]) hpv' hnd'
            refine ⟨node :: ext', ?_, ?_, ?_, ?_, ?_⟩
            · rw [hres, hext']
              simp
            · exact BackChain.cons v node e.source ext' hfind
                ⟨e, heP.1, rfl, heP.2⟩ hch'
            · have : path ++ node :: ext' = (path ++ [node]) ++ ext' := by
                simp
              rw [this]
              exact hnd''
            · intro n hn
              rw [hres]
              refine hmem'' n ?_
              have : path ++ node :: ext' = (path ++ [node]) ++ ext' := by
                simp
              rw [this] at hn
              exact hn
            · rw [hres]
              exact (Finset.subset_insert v vis).trans hsub''

/-- C1 (counterexample): in the acyclic diamond `wDiamond`
(edges `A → O`, `B → O`, `A → B`, with `A → O` first in the edge list),
the upstream path computed for the output `O` is `[B, A, O]`, which is not
a topological order: the edge `A → B` has its source after its target. -/
theorem C1_counterexample :
    (getUpstreamPath wDiamond "O").map (fun n => n._id) = ["B", "A", "O"] ∧
    ¬ pathIsTopological wDiamond (getUpstreamPath wDiamond "O") := by
  constructor
  · with_unfolding_all rfl
  · with_unfolding_all decide

/-- C1 (amended): when every node has at most one incoming edge
(single-parent data flow, the shape §4.2's tie-break note assumes) and the
graph is acyclic, the node sequence `getUpstreamPath` produces for any
output node is in topological (source-to-sink) order: for every edge with
both endpoints on the path, the source appears strictly before the
target. -/
theorem C1_upstreamPath_topological (w : Workflow) (oid : String)
    (hsp : singleParent w) (hacyc : ¬ hasCycleProp w) :
    pathIsTopological w (getUpstreamPath w oid) := by
  unfold getUpstreamPath
  obtain ⟨ext, hext, hch, hnd, -, -⟩ :=
    traverse_chain w hsp (w.definition.nodes.length + 2) oid ∅ []
      (by simp) (by simp)
  rw [hext]
  simp only [List.nil_append]
  exact backChain_topological w hsp hacyc oid ext hch (by simpa using hnd)

/-- C1 (witness): the chain graph `I → T → O` is single-parent and
acyclic, and its computed upstream path for `O` is topologically
ordered. -/
theorem C1_witness : pathIsTopological wChain (getUpstreamPath wChain "O")
    :=
  C1_upstreamPath_topological wChain "O" (by decide)
    (hasCircularDependencies_sound wChain (by decide)
      (by with_unfolding_all rfl))

/-!
## C7 — a path's result depends only on its own upstream region
-/

theorem traverse_vis_mono (w : Workflow) :
    ∀ (fuel : Nat) (v : String) (vis : Finset String)
      (path : List WorkflowNode),
      vis ⊆ (traverse w fuel v vis path).1 := by
  intro fuel
  induction fuel with
  | zero => intro v vis path; exact Finset.Subset.refl _
  | succ fuel ih =>
      intro v vis path
      have hfold : ∀ (L : List WorkflowEdge)
          (acc : Finset String × List WorkflowNode),
          acc.1 ⊆ (L.foldl
            (fun acc e => traverse w fuel e.source acc.1 acc.2) acc).1 := by
        intro L
        induction L with
        | nil => intro acc; exact Finset.Subset.refl _
        | cons e L ihL =>
            intro acc
            rw [List.foldl_cons]
            exact (ih e.source acc.1 acc.2).trans
              (ihL (traverse w fuel e.source acc.1 acc.2))
      by_cases hvis : v ∈ vis
      · rw [traverse, if_pos hvis]
      · rcases hfind : findNode w v with _ | node
        · rw [traverse, if_neg hvis, hfind]
          exact Finset.subset_insert v vis
        · rw [traverse, if_neg hvis, hfind]
          exact (Finset.subset_insert v vis).trans
            (hfold _ (insert v vis, path ++ [node]))

theorem findNode_mem_nodeIds {w : Workflow} {v : String}
    {n : WorkflowNode} (h : findNode w v = some n) : v ∈ nodeIds w := by
  have hm : n ∈ w.definition.nodes := List.mem_of_find?_eq_some h
  exact List.mem_map.mpr ⟨n, hm, findNode_id h⟩

theorem traverse_fuel_irrel (w : Workflow) :
    ∀ (fuel : Nat) (v : String) (vis : Finset String)
      (path : List WorkflowNode) (fuel' : Nat),
      ((nodeIds w).toFinset \ vis).card < fuel → fuel ≤ fuel' →
      traverse w fuel v vis path = traverse w fuel' v vis path := by
  intro fuel
  induction fuel with
  | zero => intro v vis path fuel' hcard _; omega
  | succ fuel ih =>
      intro v vis path fuel' hcard hle
      rcases fuel' with _ | fuel'
      · omega
      · have hle' : fuel ≤ fuel' := by omega
        by_cases hvis : v ∈ vis
        · rw [traverse, traverse, if_pos hvis, if_pos hvis]
        · rcases hfind : findNode w v with _ | node
          · rw [traverse, traverse, if_neg hvis, if_neg hvis, hfind]
          · have hvS : v ∈ (nodeIds w).toFinset \ vis :=
              Finset.mem_sdiff.mpr
                ⟨List.mem_toFinset.mpr (findNode_mem_nodeIds hfind), hvis⟩
            have hcard' : ((nodeIds w).toFinset \ insert v vis).card
                < fuel := by
              have hss : (nodeIds w).toFinset \ insert v vis =
                  ((nodeIds w).toFinset \ vis).erase v := by
                ext a
                simp only [Finset.mem_sdiff, Finset.mem_insert,
                  Finset.mem_erase]
                tauto
              have hpos : 0 < ((nodeIds w).toFinset \ vis).card :=
                Finset.card_pos.mpr ⟨v, hvS⟩
              rw [hss, Finset.card_erase_of_mem hvS]
              omega
            have hfold : ∀ (L : List WorkflowEdge)
                (acc : Finset String × List WorkflowNode),
                ((nodeIds w).toFinset \ acc.1).card < fuel →
                L.foldl (fun acc e =>
                  traverse w fuel e.source acc.1 acc.2) acc =
                L.foldl (fun acc e =>
                  traverse w fuel' e.source acc.1 acc.2) acc := by
              intro L
              induction L with
              | nil => intro acc _; rfl
              | cons e L ihL =>
                  intro acc hacc
                  rw [List.foldl_cons, List.foldl_cons]
                  have hstep : traverse w fuel e.source acc.1 acc.2 =
                      traverse w fuel' e.source acc.1 acc.2 :=
                    ih e.source acc.1 acc.2 fuel' hacc hle'
                  rw [← hstep]
                  refine ihL (traverse w fuel e.source acc.1 acc.2) ?_
                  have hmono := traverse_vis_mono w fuel e.source
                    acc.1 acc.2
                  have hsub : (nodeIds w).toFinset \
                      (traverse w fuel e.source acc.1 acc.2).1 ⊆
                      (nodeIds w).toFinset \ acc.1 :=
                    Finset.sdiff_subset_sdiff (Finset.Subset.refl _) hmono
                  have := Finset.card_le_card hsub
                  omega
            rw [traverse, traverse, if_neg hvis, if_neg hvis, hfind]
            exact hfold _ (insert v vis, path ++ [node])
              (by simpa using hcard')

theorem traverse_frame (w1 w2 : Workflow) (C : Finset String)
    (hclosed : ∀ t ∈ C, ∀ e ∈ w1.definition.edges, e.target = t →
      e.source ∈ C)
    (hnodes : ∀ id ∈ C, findNode w1 id = findNode w2 id)
    (hedges : ∀ id ∈ C,
      w1.definition.edges.filter (fun e => e.target = id) =
      w2.definition.edges.filter (fun e => e.target = id)) :
    ∀ (fuel : Nat) (v : String) (vis : Finset String)
      (path : List WorkflowNode), v ∈ C →
      traverse w1 fuel v vis path = traverse w2 fuel v vis path := by
  intro fuel
  induction fuel with
  | zero => intro v vis path _; rfl
  | succ fuel ih =>
      intro v vis path hvC
      by_cases hvis : v ∈ vis
      · rw [traverse, traverse, if_pos hvis, if_pos hvis]
      · rcases hfind : findNode w1 v with _ | node
        · rw [traverse, traverse, if_neg hvis, if_neg hvis, hfind,
            ← hnodes v hvC, hfind]
        · have hLsrc : ∀ e ∈ w1.definition.edges.filter
              (fun e => e.target = v), e.source ∈ C := by
            intro e he
            rw [List.mem_filter] at he
            exact hclosed v hvC e he.1 (by simpa using he.2)
          have hfold : ∀ (L : List WorkflowEdge)
              (acc : Finset String × List WorkflowNode),
              (∀ e ∈ L, e.source ∈ C) →
              L.foldl (fun acc e =>
                traverse w1 fuel e.source acc.1 acc.2) acc =
              L.foldl (fun acc e =>
                traverse w2 fuel e.source acc.1 acc.2) acc := by
            intro L
            induction L with
            | nil => intro acc _; rfl
            | cons e L ihL =>
                intro acc hL
                rw [List.foldl_cons, List.foldl_cons]
                have hstep : traverse w1 fuel e.source acc.1 acc.2 =
                    traverse w2 fuel e.source acc.1 acc.2 :=
                  ih e.source acc.1 acc.2 (hL e (List.mem_cons_self _ _))
                rw [← hstep]
                exact ihL _ (fun e' he' => hL e'
                  (List.mem_cons_of_mem _ he'))
          rw [traverse, traverse, if_neg hvis, if_neg hvis, hfind,
            ← hnodes v hvC, hfind, ← hedges v hvC]
          exact hfold _ (insert v vis, path ++ [node]) hLsrc

theorem traverse_ids_in_C (w : Workflow) (C : Finset String)
    (hclosed : ∀ t ∈ C, ∀ e ∈ w.definition.edges, e.target = t →
      e.source ∈ C) :
    ∀ (fuel : Nat) (v : String) (vis : Finset String)
      (path : List WorkflowNode), v ∈ C →
      (∀ n ∈ path, n._id ∈ C) →
      ∀ n ∈ (traverse w fuel v vis path).2, n._id ∈ C := by
  intro fuel
  induction fuel with
  | zero => intro v vis path _ hp n hn; exact hp n hn
  | succ fuel ih =>
      intro v vis path hvC hp
      by_cases hvis : v ∈ vis
      · rw [traverse, if_pos hvis]
        exact hp
      · rcases hfind : findNode w v with _ | node
        · rw [traverse, if_neg hvis, hfind]
          exact hp
        · have hp' : ∀ n ∈ path ++ [node], n._id ∈ C := by
            intro n hn
            rcases List.mem_append.mp hn with h | h
            · exact hp n h
            · rw [List.mem_singleton.mp h, findNode_id hfind]
              exact hvC
          have hLsrc : ∀ e ∈ w.definition.edges.filter
              (fun e => e.target = v), e.source ∈ C := by
            intro e he
            rw [List.mem_filter] at he
            exact hclosed v hvC e he.1 (by simpa using he.2)
          have hfold : ∀ (L : List WorkflowEdge)
              (acc : Finset String × List WorkflowNode),
              (∀ e ∈ L, e.source ∈ C) →
              (∀ n ∈ acc.2, n._id ∈ C) →
              ∀ n ∈ (L.foldl (fun acc e =>
                traverse w fuel e.source acc.1 acc.2) acc).2,
                n._id ∈ C := by
            intro L
            induction L with
            | nil => intro acc _ hacc n hn; exact hacc n hn
            | cons e L ihL =>
                intro acc hL hacc
                rw [List.foldl_cons]
                refine ihL _ (fun e' he' => hL e'
                  (List.mem_cons_of_mem _ he')) ?_
                exact ih e.source acc.1 acc.2
                  (hL e (List.mem_cons_self _ _)) hacc
          rw [traverse, if_neg hvis, hfind]
          exact hfold _ (insert v vis, path ++ [node]) hLsrc hp'

theorem executeNodeInPath_frame (P : JSPrims) (w1 w2 : Workflow)
    (node : WorkflowNode)
    (hE : w1.definition.edges.filter (fun e => e.target = node._id) =
      w2.definition.edges.filter (fun e => e.target = node._id)) :
    ∀ acc, executeNodeInPath P w1 node acc =
      executeNodeInPath P w2 node acc := by
  intro acc
  unfold executeNodeInPath executeTransformNodeInPath
    executeOutputNodeInPath getSourceNodeIdInPath
  rw [hE]

theorem executePathAux_frame (P : JSPrims) (w1 w2 : Workflow) :
    ∀ (path : List WorkflowNode),
      (∀ node ∈ path,
        w1.definition.edges.filter (fun e => e.target = node._id) =
        w2.definition.edges.filter (fun e => e.target = node._id)) →
      ∀ acc, executePathAux P w1 path acc = executePathAux P w2 path acc
    := by
  intro path
  induction path with
  | nil => intro _ acc; rfl
  | cons node path ihp =>
      intro hp acc
      rw [executePathAux, executePathAux,
        executeNodeInPath_frame P w1 w2 node
          (hp node (List.mem_cons_self _ _)) acc]
      rcases executeNodeInPath P w2 node acc with e | d
      · rfl
      · exact ihp (fun n hn => hp n (List.mem_cons_of_mem _ hn)) _

theorem executePath_frame (P : JSPrims) (w1 w2 : Workflow)
    (path : List WorkflowNode)
    (hp : ∀ node ∈ path,
      w1.definition.edges.filter (fun e => e.target = node._id) =
      w2.definition.edges.filter (fun e => e.target = node._id)) :
    executePath P w1 path = executePath P w2 path := by
  unfold executePath
  rw [executePathAux_frame P w1 w2 path hp []]

/-- C7: the result `executeWorkflow` computes for an output node depends
only on that output's upstream region.  For any region `C` of ids that
contains the output and is closed under edge sources, if two graphs agree
on the node of every id in `C` and on the (ordered) incoming-edge lists of
every id in `C` — while being free to differ elsewhere, e.g. in other
output nodes and the edges into them — then the upstream paths coincide,
and so does the per-path execution result that `executeWorkflow` stores for
this output.  This holds for every instantiation of the platform
primitives. -/
theorem C7_output_isolation (P : JSPrims) (w1 w2 : Workflow)
    (oid : String) (C : Finset String) (hmem : oid ∈ C)
    (hclosed : ∀ t ∈ C, ∀ e ∈ w1.definition.edges, e.target = t →
      e.source ∈ C)
    (hnodes : ∀ id ∈ C, findNode w1 id = findNode w2 id)
    (hedges : ∀ id ∈ C,
      w1.definition.edges.filter (fun e => e.target = id) =
      w2.definition.edges.filter (fun e => e.target = id)) :
    getUpstreamPath w1 oid = getUpstreamPath w2 oid ∧
    executePath P w1 (getUpstreamPath w1 oid) =
      executePath P w2 (getUpstreamPath w2 oid) := by
  have hcard1 : ((nodeIds w1).toFinset \ (∅ : Finset String)).card <
      w1.definition.nodes.length + 2 := by
    have h1 : (nodeIds w1).toFinset.card ≤ (nodeIds w1).length :=
      (nodeIds w1).toFinset_card_le
    have h2 : (nodeIds w1).length = w1.definition.nodes.length :=
      List.length_map _ _
    simpa using by omega
  have hcard2 : ((nodeIds w2).toFinset \ (∅ : Finset String)).card <
      w2.definition.nodes.length + 2 := by
    have h1 : (nodeIds w2).toFinset.card ≤ (nodeIds w2).length :=
      (nodeIds w2).toFinset_card_le
    have h2 : (nodeIds w2).length = w2.definition.nodes.length :=
      List.length_map _ _
    simpa using by omega
  set F := max (w1.definition.nodes.length + 2)
    (w2.definition.nodes.length + 2) with hF
  have ht1 : traverse w1 (w1.definition.nodes.length + 2) oid ∅ [] =
      traverse w1 F oid ∅ [] :=
    traverse_fuel_irrel w1 _ oid ∅ [] F hcard1 (le_max_left _ _)
  have ht2 : traverse w2 (w2.definition.nodes.length + 2) oid ∅ [] =
      traverse w2 F oid ∅ [] :=
    traverse_fuel_irrel w2 _ oid ∅ [] F hcard2 (le_max_right _ _)
  have htf : traverse w1 F oid ∅ [] = traverse w2 F oid ∅ [] :=
    traverse_frame w1 w2 C hclosed hnodes hedges F oid ∅ [] hmem
  have hpath : getUpstreamPath w1 oid = getUpstreamPath w2 oid := by
    unfold getUpstreamPath
    rw [ht1, ht2, htf]
  refine ⟨hpath, ?_⟩
  rw [← hpath]
  refine executePath_frame P w1 w2 (getUpstreamPath w1 oid) ?_
  intro node hn
  refine hedges node._id ?_
  have hmem' : node ∈ (traverse w1 (w1.definition.nodes.length + 2)
      oid ∅ []).2 := by
    unfold getUpstreamPath at hn
    exact List.mem_reverse.mp hn
  exact traverse_ids_in_C w1 C hclosed _ oid ∅ [] hmem (by simp)
    node hmem'

/-- C7 (witness): adding a second output `O2` (fed by the shared transform
`T`) to the chain `I → T → O` leaves both the upstream path of `O` and its
execution result unchanged. -/
theorem C7_witness :
    getUpstreamPath wChain "O" = getUpstreamPath wChainTwo "O" ∧
    executePath dummyPrims wChain (getUpstreamPath wChain "O") =
      executePath dummyPrims wChainTwo (getUpstreamPath wChainTwo "O") :=
  C7_output_isolation dummyPrims wChain wChainTwo "O"
    ({"I", "T", "O"} : Finset String) (by decide) (by decide) (by decide)
    (by decide)

/-!
## C6 — abort on the first failing output path
-/

theorem jsHas_append {α : Type} (l l' : List (String × α)) (k : String)
    (h : jsHas l k = true) : jsHas (l ++ l') k = true := by
  induction l with
  | nil => simp [jsHas, jsGet] at h
  | cons p rest ih =>
      rcases p with ⟨k₀, v₀⟩
      by_cases hk : k₀ = k
      · simp [jsHas, jsGet, hk]
      · simp only [jsHas, jsGet, if_neg hk] at h
        simp only [List.cons_append, jsHas, jsGet, if_neg hk]
        exact ih h

theorem jsHas_append_key {α : Type} (l : List (String × α)) (k : String)
    (v : α) : jsHas (l ++ [(k, v)]) k = true := by
  induction l with
  | nil => simp [jsHas, jsGet]
  | cons p rest ih =>
      rcases p with ⟨k₀, v₀⟩
      by_cases hk : k₀ = k
      · simp [jsHas, jsGet, hk]
      · simp only [List.cons_append, jsHas, jsGet, if_neg hk]
        exact ih

theorem executePathAux_keys (P : JSPrims) (w : Workflow) :
    ∀ (path : List WorkflowNode) (acc acc' : List (String × NodeRes)),
      executePathAux P w path acc = .ok acc' →
      (∀ k, jsHas acc k = true → jsHas acc' k = true) ∧
      ∀ n ∈ path, jsHas acc' n._id = true := by
  intro path
  induction path with
  | nil =>
      intro acc acc' h
      rw [executePathAux] at h
      cases h
      exact ⟨fun k hk => hk, fun n hn => absurd hn (List.not_mem_nil n)⟩
  | cons node rest ih =>
      intro acc acc' h
      rw [executePathAux] at h
      rcases hstep : executeNodeInPath P w node acc with m | d
      · rw [hstep] at h; cases h
      · rw [hstep] at h
        obtain ⟨hmono, hall⟩ := ih (acc ++ [(node._id, d)]) acc' h
        refine ⟨fun k hk => hmono k (jsHas_append _ _ _ hk), ?_⟩
        intro n hn
        rcases List.mem_cons.mp hn with h1 | h1
        · rw [h1]; exact hmono _ (jsHas_append_key acc node._id d)
        · exact hall n h1

theorem executePathAux_error_shape (P : JSPrims) (w : Workflow) :
    ∀ (path : List WorkflowNode) (acc : List (String × NodeRes))
      (e : String), executePathAux P w path acc = .error e →
      ∃ n ∈ path, ∃ msg, e = "Node " ++ n._id ++ " (" ++ n.type ++
        ") execution failed: " ++ msg := by
  intro path
  induction path with
  | nil => intro acc e h; rw [executePathAux] at h; cases h
  | cons node rest ih =>
      intro acc e h
      rw [executePathAux] at h
      rcases hstep : executeNodeInPath P w node acc with m | d
      · rw [hstep] at h
        cases h
        exact ⟨node, List.mem_cons_self _ _, m, rfl⟩
      · rw [hstep] at h
        obtain ⟨n, hn, msg, hmsg⟩ := ih _ e h
        exact ⟨n, List.mem_cons_of_mem _ hn, msg, hmsg⟩

theorem traverse_path_extends (w : Workflow) :
    ∀ (fuel : Nat) (v : String) (vis : Finset String)
      (path : List WorkflowNode),
      ∃ suffix, (traverse w fuel v vis path).2 = path ++ suffix := by
  intro fuel
  induction fuel with
  | zero =>
      intro v vis path
      exact ⟨[], by rw [traverse, List.append_nil]⟩
  | succ fuel ih =>
      intro v vis path
      by_cases hvis : v ∈ vis
      · exact ⟨[], by rw [traverse, if_pos hvis, List.append_nil]⟩
      · rcases hfind : findNode w v with _ | node
        · exact ⟨[], by
            rw [traverse, if_neg hvis, hfind, List.append_nil]⟩
        · have hfold : ∀ (L : List WorkflowEdge)
              (acc : Finset String × List WorkflowNode),
              ∃ suffix, (L.foldl (fun acc e =>
                traverse w fuel e.source acc.1 acc.2) acc).2 =
                acc.2 ++ suffix := by
            intro L
            induction L with
            | nil => intro acc; exact ⟨[], (List.append_nil _).symm⟩
            | cons ed L ihL =>
                intro acc
                obtain ⟨s₁, hs₁⟩ := ih ed.source acc.1 acc.2
                obtain ⟨s₂, hs₂⟩ :=
                  ihL (traverse w fuel ed.source acc.1 acc.2)
                refine ⟨s₁ ++ s₂, ?_⟩
                rw [List.foldl_cons, hs₂, hs₁, List.append_assoc]
          obtain ⟨s, hs⟩ := hfold
            (w.definition.edges.filter (fun e => e.target = v))
            (insert v vis, path ++ [node])
          refine ⟨[node] ++ s, ?_⟩
          rw [traverse, if_neg hvis, hfind, hs, List.append_assoc]

theorem traverse_root_cons (w : Workflow) (f : Nat) (oid : String)
    (n : WorkflowNode) (hfind : findNode w oid = some n) :
    ∃ suffix, (traverse w (f + 1) oid ∅ []).2 = n :: suffix := by
  have hfold : ∀ (L : List WorkflowEdge)
      (acc : Finset String × List WorkflowNode),
      ∃ suffix, (L.foldl (fun acc e =>
        traverse w f e.source acc.1 acc.2) acc).2 = acc.2 ++ suffix := by
    intro L
    induction L with
    | nil => intro acc; exact ⟨[], (List.append_nil _).symm⟩
    | cons ed L ihL =>
        intro acc
        obtain ⟨s₁, hs₁⟩ := traverse_path_extends w f ed.source acc.1 acc.2
        obtain ⟨s₂, hs₂⟩ := ihL (traverse w f ed.source acc.1 acc.2)
        refine ⟨s₁ ++ s₂, ?_⟩
        rw [List.foldl_cons, hs₂, hs₁, List.append_assoc]
  obtain ⟨s, hs⟩ := hfold
    (w.definition.edges.filter (fun e => e.target = oid))
    (insert oid ∅, [] ++ [n])
  refine ⟨s, ?_⟩
  rw [traverse, if_neg (Finset.not_mem_empty oid), hfind, hs]
  simp

theorem getLast?_mem_self {α : Type} :
    ∀ (l : List α) (a : α), l.getLast? = some a → a ∈ l := by
  intro l
  induction l with
  | nil => intro a h; cases h
  | cons x xs ih =>
      intro a h
      rcases xs with _ | ⟨y, ys⟩
      · rw [List.getLast?_singleton] at h
        cases h
        exact List.mem_singleton_self x
      · rw [List.getLast?_cons_cons] at h
        exact List.mem_cons_of_mem _ (ih a h)

theorem executeOutputs_abort (P : JSPrims) (w : Workflow)
    (o : WorkflowNode) (rest : List WorkflowNode)
    (res : WorkflowNode → NodeRes) (e : String)
    (hfail : executePath P w (getUpstreamPath w o._id) = .error e) :
    ∀ (done : List WorkflowNode) (nr ao : List (String × NodeRes)),
      (∀ d ∈ done,
        executePath P w (getUpstreamPath w d._id) = .ok (res d)) →
      executeOutputs P w (done ++ o :: rest) nr ao =
        ⟨false, [], some ("Execution failed for output node " ++ o._id ++
          ": " ++ e),
          done.foldl (fun acc d => jsSet acc d._id (res d)) nr⟩ := by
  intro done
  induction done with
  | nil =>
      intro nr ao _
      rw [List.nil_append, executeOutputs, hfail]
      rfl
  | cons d ds ih =>
      intro nr ao hdone
      rw [List.cons_append, executeOutputs,
        hdone d (List.mem_cons_self _ _), List.foldl_cons]
      exact ih _ _ (fun d' hd' => hdone d' (List.mem_cons_of_mem _ hd'))

/-- C6: `executeWorkflow` processes the output nodes in node enumeration
order; on the first output whose path fails it stops, returning
`success := false`, an error message naming that output node's id and
carrying the path error — which itself names the failing in-path node's id
and type — and `nodeResults` holding exactly the results of the outputs
that completed before it (in order). -/
theorem C6_executeWorkflow_abort (P : JSPrims) (w : Workflow)
    (done rest : List WorkflowNode) (o : WorkflowNode)
    (res : WorkflowNode → NodeRes) (e : String)
    (hvalid : (validateWorkflow w).valid = true)
    (hsplit : w.definition.nodes.filter (fun n => n.type = "output") =
      done ++ o :: rest)
    (hdone : ∀ d ∈ done,
      executePath P w (getUpstreamPath w d._id) = .ok (res d))
    (hfail : executePath P w (getUpstreamPath w o._id) = .error e) :
    executeWorkflow P w = ⟨false, [],
      some ("Execution failed for output node " ++ o._id ++ ": " ++ e),
      done.foldl (fun acc d => jsSet acc d._id (res d)) []⟩ ∧
    ∃ n ∈ getUpstreamPath w o._id, ∃ msg,
      e = "Node " ++ n._id ++ " (" ++ n.type ++ ") execution failed: "
        ++ msg := by
  have ho : o ∈ w.definition.nodes := by
    have hmem : o ∈ w.definition.nodes.filter (fun n => n.type = "output")
        := by
      rw [hsplit]
      exact List.mem_append_right _ (List.mem_cons_self _ _)
    exact (List.mem_filter.mp hmem).1
  have hfind : ∃ n, findNode w o._id = some n := by
    rcases hf : findNode w o._id with _ | n
    · exfalso
      have := List.find?_eq_none.mp hf o ho
      simp at this
    · exact ⟨n, rfl⟩
  obtain ⟨fn, hfind⟩ := hfind
  have hcons : ∃ suffix,
      (traverse w (w.definition.nodes.length + 1 + 1) o._id ∅ []).2 =
      fn :: suffix := traverse_root_cons w _ o._id fn hfind
  obtain ⟨suf, hsuf⟩ := hcons
  have hpath : getUpstreamPath w o._id = suf.reverse ++ [fn] := by
    show (traverse w (w.definition.nodes.length + 2) o._id ∅ []).2.reverse
      = suf.reverse ++ [fn]
    rw [show w.definition.nodes.length + 2 =
      w.definition.nodes.length + 1 + 1 from rfl, hsuf,
      List.reverse_cons]
  constructor
  · have hz : executeWorkflow P w =
        if (validateWorkflow w).valid = false then
          ⟨false, [], some ("Workflow validation failed: " ++
            (validateWorkflow w).error.getD ""), []⟩
        else executeOutputs P w
          (w.definition.nodes.filter (fun n => n.type = "output")) [] []
        := rfl
    rw [hz, hvalid]
    simp only [Bool.true_eq_false, if_false]
    rw [hsplit]
    exact executeOutputs_abort P w o rest res e hfail done [] [] hdone
  · rcases haux : executePathAux P w (getUpstreamPath w o._id) [] with
      e' | acc
    · have he : e' = e := by
        rw [executePath, haux] at hfail
        exact (Except.error.inj hfail)
      rw [← he]
      exact executePathAux_error_shape P w _ [] e' haux
    · exfalso
      have hmem : fn ∈ getUpstreamPath w o._id := by
        rw [hpath]
        exact List.mem_append_right _ (List.mem_singleton_self fn)
      have hkeys := (executePathAux_keys P w _ [] acc haux).2 fn hmem
      rw [jsHas] at hkeys
      obtain ⟨d, hd⟩ := Option.isSome_iff_exists.mp hkeys
      have hok : executePath P w (getUpstreamPath w o._id) =
          Except.ok d := by
        rw [executePath, haux]
        show (match (getUpstreamPath w o._id).getLast? with
            | none => Except.error "empty path"
            | some lastNode =>
              match jsGet acc lastNode._id with
              | some r => Except.ok r
              | none => Except.error "missing path result") = Except.ok d
        rw [hpath, List.getLast?_concat]
        show (match jsGet acc fn._id with
            | some r => Except.ok r
            | none => Except.error "missing path result") = Except.ok d
        rw [hd]
      exact Except.noConfusion (hok.symm.trans hfail)

/-- C6 (witness): in the two-path graph `I1 → O1`, `I2 → O2` where `I2`'s
file is empty, the run fails on `O2` after `O1` succeeded, keeping `O1`'s
result and naming both `O2` and the failing input node `I2` in the error
message. -/
theorem C6_witness :
    executeWorkflow dummyPrims wTwoPath = ⟨false, [],
      some ("Execution failed for output node " ++ "O2" ++ ": " ++
        "Node I2 (input) execution failed: Input node I2 has no file content"),
      [(⟨"O1", "output", emptyData⟩ : WorkflowNode)].foldl
        (fun acc d => jsSet acc d._id
          (NodeRes.out "output_O1.json" "json" ""
            (NodeRes.table [[("a", Value.str "1")]]))) []⟩ ∧
    ∃ n ∈ getUpstreamPath wTwoPath "O2", ∃ msg,
      "Node I2 (input) execution failed: Input node I2 has no file content"
        = "Node " ++ n._id ++ " (" ++ n.type ++ ") execution failed: "
          ++ msg :=
  C6_executeWorkflow_abort dummyPrims wTwoPath
    [⟨"O1", "output", emptyData⟩] [] ⟨"O2", "output", emptyData⟩
    (fun _ => NodeRes.out "output_O1.json" "json" ""
      (NodeRes.table [[("a", Value.str "1")]]))
    "Node I2 (input) execution failed: Input node I2 has no file content"
    (by with_unfolding_all rfl) (by with_unfolding_all rfl)
    (by
      intro d hd
      rw [List.mem_singleton] at hd
      subst hd
      with_unfolding_all rfl)
    (by with_unfolding_all rfl)

/-!
## C2 — which transforms leave their input table unchanged
-/

/-- C2 (counterexample): NORMALIZE assigns the scaled value into the row
object it received (`row[columnName] = ...; return row`), so after the call
the caller's table holds the new values: the spec's "transforms never
mutate the table they receive" fails for it. -/
theorem C2_counterexample :
    applyTransformPost dummyPrims "NORMALIZE"
      [[("v", Value.str "0")], [("v", Value.str "10")]]
      ⟨none, "NORMALIZE", "v", "", ""⟩ ≠
    [[("v", Value.str "0")], [("v", Value.str "10")]] := by
  with_unfolding_all decide

theorem postRows_fresh_all (f : String → String) (data : RowTable) :
    postRows (stringAllStep f) data = data := by
  simp [postRows, stringAllStep]

/-- C2 (amended): only part of the Transform Library is non-mutating.
NONE, FILTER, DROP_COLUMN and RENAME_COLUMN never touch the received rows
(they filter, or build fresh row objects), and TRIM / TO_UPPER / TO_LOWER /
STRIP_WHITESPACE copy each row when no column is selected; for those kinds
the input table is left exactly as received.  The remaining column-scoped
kinds assign into the received rows (see the counterexample). -/
theorem C2_nonmutating_kinds (P : JSPrims) (ty : String) (data : RowTable)
    (td : NodeData)
    (h : ty ∈ ["NONE", "FILTER", "DROP_COLUMN", "RENAME_COLUMN"] ∨
      (ty ∈ ["TRIM", "TO_UPPER", "TO_LOWER", "STRIP_WHITESPACE"] ∧
        td.columnName = "")) :
    applyTransformPost P ty data td = data := by
  rcases h with h | ⟨h, hc⟩
  · simp only [List.mem_cons, List.not_mem_nil, or_false] at h
    rcases h with rfl | rfl | rfl | rfl <;> rfl
  · simp only [List.mem_cons, List.not_mem_nil, or_false] at h
    rcases h with rfl | rfl | rfl | rfl
    · show applyTrimPost data td = data
      rw [applyTrimPost, if_pos hc, postRows_fresh_all]
    · show applyToUpperPost data td = data
      rw [applyToUpperPost, if_pos hc, postRows_fresh_all]
    · show applyToLowerPost data td = data
      rw [applyToLowerPost, if_pos hc, postRows_fresh_all]
    · show applyStripWhitespacePost data td = data
      rw [applyStripWhitespacePost, if_pos hc, postRows_fresh_all]

/-- C2 (witness): all-column TRIM leaves the input table as received. -/
theorem C2_witness :
    applyTransformPost dummyPrims "TRIM" [[("a", Value.str " x ")]]
      ⟨none, "TRIM", "", "", ""⟩ = [[("a", Value.str " x ")]] :=
  C2_nonmutating_kinds dummyPrims "TRIM" [[("a", Value.str " x ")]]
    ⟨none, "TRIM", "", "", ""⟩
    (Or.inr ⟨List.mem_cons_self _ _, rfl⟩)

/-!
## C4 — FILTER's condition syntax includes the column name
-/

/-- C4 (counterexample): with columnName `"age"` and the spec's condition
`"> 25"`, `applyFilterTransformation` does not keep only `{age: "30"}` —
the text before `>` is `""`, which differs from `"age"`, so the comparison
branch is skipped and every row is kept. -/
theorem C4_counterexample :
    applyFilterTransformation
      [[("age", Value.str "20")], [("age", Value.str "30")]]
      ⟨none, "FILTER", "age", "> 25", ""⟩ ≠
    [[("age", Value.str "30")]] := by
  with_unfolding_all decide

/-- C4 (amended): FILTER parses its condition as `column op value` and
requires the named column to match the configured one.  The condition
`"age > 25"` keeps exactly the rows whose `age` parses above 25, while the
spec's bare `"> 25"` names no column and passes the table through
unchanged. -/
theorem C4_filter_condition_includes_column :
    applyFilterTransformation
      [[("age", Value.str "20")], [("age", Value.str "30")]]
      ⟨none, "FILTER", "age", "age > 25", ""⟩ =
      [[("age", Value.str "30")]] ∧
    applyFilterTransformation
      [[("age", Value.str "20")], [("age", Value.str "30")]]
      ⟨none, "FILTER", "age", "> 25", ""⟩ =
      [[("age", Value.str "20")], [("age", Value.str "30")]] := by
  constructor
  · with_unfolding_all rfl
  · with_unfolding_all rfl

/-!
## C8 — NORMALIZE is min-max scaling
-/

theorem foldl_min_le (vs : List ℚ) :
    ∀ (v x : ℚ), x ∈ v :: vs → vs.foldl min v ≤ x := by
  induction vs with
  | nil =>
      intro v x hx
      rw [List.mem_singleton] at hx
      subst hx
      exact le_refl _
  | cons a as ih =>
      intro v x hx
      rw [List.foldl_cons]
      rcases List.mem_cons.mp hx with rfl | hx'
      · exact le_trans (ih (min x a) (min x a) (List.mem_cons_self _ _))
          (min_le_left x a)
      · rcases List.mem_cons.mp hx' with rfl | hx''
        · exact le_trans (ih (min v x) (min v x) (List.mem_cons_self _ _))
            (min_le_right v x)
        · exact ih (min v a) x (List.mem_cons_of_mem _ hx'')

theorem foldl_min_mem (vs : List ℚ) :
    ∀ v : ℚ, vs.foldl min v ∈ v :: vs := by
  induction vs with
  | nil => intro v; exact List.mem_singleton_self v
  | cons a as ih =>
      intro v
      rw [List.foldl_cons]
      rcases List.mem_cons.mp (ih (min v a)) with hm | hm
      · rcases min_choice v a with hva | hva
        · rw [hm, hva]; exact List.mem_cons_self _ _
        · rw [hm, hva]
          exact List.mem_cons_of_mem _ (List.mem_cons_self _ _)
      · exact List.mem_cons_of_mem _ (List.mem_cons_of_mem _ hm)

theorem foldl_max_ge (vs : List ℚ) :
    ∀ (v x : ℚ), x ∈ v :: vs → x ≤ vs.foldl max v := by
  induction vs with
  | nil =>
      intro v x hx
      rw [List.mem_singleton] at hx
      subst hx
      exact le_refl _
  | cons a as ih =>
      intro v x hx
      rw [List.foldl_cons]
      rcases List.mem_cons.mp hx with rfl | hx'
      · exact le_trans (le_max_left x a)
          (ih (max x a) (max x a) (List.mem_cons_self _ _))
      · rcases List.mem_cons.mp hx' with rfl | hx''
        · exact le_trans (le_max_right v x)
            (ih (max v x) (max v x) (List.mem_cons_self _ _))
        · exact ih (max v a) x (List.mem_cons_of_mem _ hx'')

theorem foldl_max_mem (vs : List ℚ) :
    ∀ v : ℚ, vs.foldl max v ∈ v :: vs := by
  induction vs with
  | nil => intro v; exact List.mem_singleton_self v
  | cons a as ih =>
      intro v
      rw [List.foldl_cons]
      rcases List.mem_cons.mp (ih (max v a)) with hm | hm
      · rcases max_choice v a with hva | hva
        · rw [hm, hva]; exact List.mem_cons_self _ _
        · rw [hm, hva]
          exact List.mem_cons_of_mem _ (List.mem_cons_self _ _)
      · exact List.mem_cons_of_mem _ (List.mem_cons_of_mem _ hm)

theorem mem_numericSet_iff (data : RowTable) (c : String) (q : ℚ) :
    q ∈ numericSet data c ↔ q ∈ numericColumnValues data c := by
  rw [numericSet, Set.mem_setOf_eq, numericColumnValues,
    List.mem_filterMap]

/-- C8: NORMALIZE with a selected column is exactly min-max scaling.  If
`mn` and `mx` are the least and greatest numeric values of the column
across the table, then every row whose column value parses to `v` gets the
value `(v - mn) / (mx - mn)` when `mx ≠ mn` and is left unchanged when
`mx = mn`; rows whose column value is absent or unparseable are left
unchanged. -/
theorem C8_normalize (data : RowTable) (td : NodeData) (mn mx : ℚ)
    (hc : ¬ td.columnName = "")
    (hmn : IsLeast (numericSet data td.columnName) mn)
    (hmx : IsGreatest (numericSet data td.columnName) mx) :
    applyNormalizeTransformation data td =
      data.map (fun row =>
        match (jsGet row td.columnName).bind parseFloatV with
        | some v =>
            if mx ≠ mn then
              jsSet row td.columnName (.num ((v - mn) / (mx - mn)))
            else row
        | none => row) := by
  rcases hl : numericColumnValues data td.columnName with _ | ⟨v, vs⟩
  · exfalso
    have := (mem_numericSet_iff data td.columnName mn).mp hmn.1
    rw [hl] at this
    exact List.not_mem_nil mn this
  · have hmnL : mn ∈ v :: vs := by
      have := (mem_numericSet_iff data td.columnName mn).mp hmn.1
      rwa [hl] at this
    have hmxL : mx ∈ v :: vs := by
      have := (mem_numericSet_iff data td.columnName mx).mp hmx.1
      rwa [hl] at this
    have hmem_min : vs.foldl min v ∈ numericSet data td.columnName := by
      rw [mem_numericSet_iff, hl]
      exact foldl_min_mem vs v
    have hmem_max : vs.foldl max v ∈ numericSet data td.columnName := by
      rw [mem_numericSet_iff, hl]
      exact foldl_max_mem vs v
    have hmneq : vs.foldl min v = mn :=
      le_antisymm (foldl_min_le vs v mn hmnL) (hmn.2 hmem_min)
    have hmxeq : vs.foldl max v = mx :=
      le_antisymm (hmx.2 hmem_max) (foldl_max_ge vs v mx hmxL)
    rw [applyNormalizeTransformation, if_neg hc, hl]
    show applyRows
      (normalizeStep td.columnName (vs.foldl min v)
        (vs.foldl max v - vs.foldl min v)) data = _
    rw [hmneq, hmxeq, applyRows]
    refine List.map_congr_left ?_
    intro row _
    rw [normalizeStep, RowUpd.row]
    rcases hv : (jsGet row td.columnName).bind parseFloatV with _ | v'
    · rfl
    · show (if mx - mn ≠ 0 then
          jsSet row td.columnName (.num ((v' - mn) / (mx - mn)))
        else row) = _
      rw [if_congr sub_ne_zero (Eq.refl _) (Eq.refl _)]

/-- C8 (witness): NORMALIZE on `v` over `[{v:"0"},{v:"10"}]` yields
`[{v:0},{v:1}]`. -/
theorem C8_witness :
    applyNormalizeTransformation
      [[("v", Value.str "0")], [("v", Value.str "10")]]
      ⟨none, "NORMALIZE", "v", "", ""⟩ =
    [[("v", Value.num 0)], [("v", Value.num 1)]] := by
  have h1 : (jsGet [("v", Value.str "0")] "v").bind parseFloatV =
      some 0 := by with_unfolding_all rfl
  have h2 : (jsGet [("v", Value.str "10")] "v").bind parseFloatV =
      some 10 := by with_unfolding_all rfl
  have hmem : ∀ q : ℚ, q ∈ numericSet
      [[("v", Value.str "0")], [("v", Value.str "10")]] "v" →
      q = 0 ∨ q = 10 := by
    rintro q ⟨row, hrow, hq⟩
    simp only [List.mem_cons, List.not_mem_nil, or_false] at hrow
    rcases hrow with rfl | rfl
    · rw [h1] at hq
      injection hq with h
      exact Or.inl h.symm
    · rw [h2] at hq
      injection hq with h
      exact Or.inr h.symm
  have hmn : IsLeast (numericSet
      [[("v", Value.str "0")], [("v", Value.str "10")]] "v") 0 := by
    refine ⟨⟨[("v", Value.str "0")], List.mem_cons_self _ _, h1⟩, ?_⟩
    intro q hq
    rcases hmem q hq with rfl | rfl
    · exact le_refl _
    · norm_num
  have hmx : IsGreatest (numericSet
      [[("v", Value.str "0")], [("v", Value.str "10")]] "v") 10 := by
    refine ⟨⟨[("v", Value.str "10")],
      List.mem_cons_of_mem _ (List.mem_cons_self _ _), h2⟩, ?_⟩
    intro q hq
    rcases hmem q hq with rfl | rfl
    · norm_num
    · exact le_refl _
  rw [C8_normalize _ _ 0 10 (by decide) hmn hmx]
  with_unfolding_all rfl

/-!
## C9 — missing column parameter is fail-soft, not an error
-/

/-- C9: every column-scoped transform kind passes the table through
unchanged — as a success, not an error — when its `columnName` is empty
(the falsy `!columnName` guard), and RENAME_COLUMN does the same when its
`targetValue` is empty. -/
theorem C9_fail_soft (P : JSPrims) (ty : String) (data : RowTable)
    (td : NodeData)
    (h : (ty ∈ ["FILTER", "DROP_COLUMN", "RENAME_COLUMN", "NORMALIZE",
        "FILL_NA", "CONVERT_TO_STRING", "CONVERT_TO_NUMERIC",
        "ROUND_NUMBERS", "FORMAT_NUMBERS", "REMOVE_SPECIAL_CHARS",
        "EXTRACT_NUMBERS", "EXTRACT_STRINGS"] ∧ td.columnName = "") ∨
      (ty = "RENAME_COLUMN" ∧ td.targetValue = "")) :
    applyTransform P ty data td = .ok data := by
  rcases h with ⟨h, hc⟩ | ⟨rfl, ht⟩
  · simp only [List.mem_cons, List.not_mem_nil, or_false] at h
    rcases h with rfl | rfl | rfl | rfl | rfl | rfl | rfl | rfl | rfl |
      rfl | rfl | rfl
    · show Except.ok (applyFilterTransformation data td) = _
      rw [applyFilterTransformation, if_pos (Or.inl hc)]
    · show Except.ok (applyDropColumnTransformation data td) = _
      rw [applyDropColumnTransformation, if_pos hc]
    · show Except.ok (applyRenameColumnTransformation data td) = _
      rw [applyRenameColumnTransformation, if_pos (Or.inl hc)]
    · show Except.ok (applyNormalizeTransformation data td) = _
      rw [applyNormalizeTransformation, if_pos hc]
    · show Except.ok (applyFillNATransformation data td) = _
      rw [applyFillNATransformation, if_pos hc]
    · show Except.ok (applyConvertToStringTransformation data td) = _
      rw [applyConvertToStringTransformation, if_pos hc]
    · show Except.ok (applyConvertToNumericTransformation data td) = _
      rw [applyConvertToNumericTransformation, if_pos hc]
    · show Except.ok (applyRoundNumbersTransformation data td) = _
      rw [applyRoundNumbersTransformation, if_pos hc]
    · show Except.ok (applyFormatNumbersTransformation data td) = _
      rw [applyFormatNumbersTransformation, if_pos hc]
    · show Except.ok (applyRemoveSpecialCharsTransformation P data td) = _
      rw [applyRemoveSpecialCharsTransformation, if_pos hc]
    · show Except.ok (applyExtractNumbersTransformation data td) = _
      rw [applyExtractNumbersTransformation, if_pos hc]
    · show Except.ok (applyExtractStringsTransformation data td) = _
      rw [applyExtractStringsTransformation, if_pos hc]
  · show Except.ok (applyRenameColumnTransformation data td) = _
    rw [applyRenameColumnTransformation, if_pos (Or.inr ht)]

/-- C9 (witness): NORMALIZE with an empty column name passes the table
through as a success. -/
theorem C9_witness :
    applyTransform dummyPrims "NORMALIZE" [[("v", Value.str "3")]]
      ⟨none, "NORMALIZE", "", "", ""⟩ =
    .ok [[("v", Value.str "3")]] :=
  C9_fail_soft dummyPrims "NORMALIZE" [[("v", Value.str "3")]]
    ⟨none, "NORMALIZE", "", "", ""⟩
    (Or.inl ⟨by decide, rfl⟩)

/-!
## C10 — CSV records carry exactly the header keys, with `""` defaults
-/

theorem jsGet_append_cases {α : Type} :
    ∀ (l₁ l₂ : List (String × α)) (k : String),
      jsGet (l₁ ++ l₂) k =
        match jsGet l₁ k with
        | some v => some v
        | none => jsGet l₂ k := by
  intro l₁
  induction l₁ with
  | nil => intro l₂ k; rfl
  | cons p rest ih =>
      intro l₂ k
      rcases p with ⟨k₀, v₀⟩
      by_cases hk : k₀ = k
      · simp [jsGet, hk]
      · simp only [List.cons_append, jsGet, if_neg hk]
        exact ih l₂ k

theorem jsSet_fresh {α : Type} :
    ∀ (l : List (String × α)) (k : String) (v : α),
      jsGet l k = none → jsSet l k v = l ++ [(k, v)] := by
  intro l
  induction l with
  | nil => intro k v _; rfl
  | cons p rest ih =>
      intro k v h
      rcases p with ⟨k₀, v₀⟩
      by_cases hk : k₀ = k
      · rw [jsGet, if_pos hk] at h
        cases h
      · rw [jsGet, if_neg hk] at h
        rw [jsSet, if_neg hk, ih k v h, List.cons_append]

theorem foldl_jsSet_closed (f : Nat × String → Value) :
    ∀ (hl : List (Nat × String)) (r₀ : Row),
      (∀ p ∈ hl, jsGet r₀ p.2 = none) → (hl.map Prod.snd).Nodup →
      hl.foldl (fun row p => jsSet row p.2 (f p)) r₀ =
        r₀ ++ hl.map (fun p => (p.2, f p)) := by
  intro hl
  induction hl with
  | nil => intro r₀ _ _; rw [List.foldl_nil, List.map_nil, List.append_nil]
  | cons p hl ih =>
      intro r₀ hfresh hnd
      rw [List.map_cons, List.nodup_cons] at hnd
      rw [List.foldl_cons, jsSet_fresh r₀ p.2 (f p)
        (hfresh p (List.mem_cons_self _ _))]
      rw [ih (r₀ ++ [(p.2, f p)]) ?_ hnd.2, List.map_cons,
        List.append_assoc, List.singleton_append]
      intro q hq
      rw [jsGet_append_cases, hfresh q (List.mem_cons_of_mem _ hq)]
      have hne : p.2 ≠ q.2 :=
        fun he => hnd.1 (he ▸ List.mem_map.mpr ⟨q, hq, rfl⟩)
      rw [jsGet, if_neg hne]
      rfl

theorem buildRow_closed (headers values : List String)
    (hnd : headers.Nodup) :
    buildRow headers values =
      headers.enum.map (fun p =>
        (p.2, Value.str (((values.get? p.1).map jsTrim).getD ""))) := by
  have h := foldl_jsSet_closed
    (fun p => Value.str (((values.get? p.1).map jsTrim).getD ""))
    headers.enum [] (fun p _ => rfl)
    (by rw [List.enum_map_snd]; exact hnd)
  rw [buildRow, h, List.nil_append]

theorem jsGet_of_get? {α : Type} :
    ∀ (L : List (String × α)) (j : Nat) (k : String) (v : α),
      (L.map Prod.fst).Nodup → L.get? j = some (k, v) →
      jsGet L k = some v := by
  intro L
  induction L with
  | nil => intro j k v _ h; cases j <;> cases h
  | cons p rest ih =>
      intro j k v hnd h
      rw [List.map_cons, List.nodup_cons] at hnd
      rcases j with _ | j
      · rw [List.get?] at h
        injection h with h'
        subst h'
        rw [jsGet, if_pos rfl]
      · rw [List.get?] at h
        have hk : p.1 ≠ k := by
          intro he
          exact hnd.1 (he ▸ List.mem_map.mpr ⟨(k, v), List.get?_mem h, rfl⟩)
        rcases p with ⟨k₀, v₀⟩
        rw [jsGet, if_neg hk]
        exact ih j k v hnd.2 h

/-- C10: under distinct header names, every record `parseCSVToArray`
produces has exactly the header fields as its keys, in header order, and
the value under the `j`-th header is always a string: the `j`-th quote-aware
field of some data line, trimmed, or `""` when that field is missing
(so a row shorter than the header list is padded with `""` and never yields
`null` or an absent key, and fields beyond the header count contribute no
key). -/
theorem C10_parseCSVToArray_keys (content : String) (row : Row)
    (hnd : (csvHeaders content).Nodup)
    (hrow : row ∈ parseCSVToArray content) :
    row.map Prod.fst = csvHeaders content ∧
    ∃ line ∈ (csvLines content).tail,
      ∀ (j : Nat) (hj : j < (csvHeaders content).length),
        jsGet row ((csvHeaders content).get ⟨j, hj⟩) =
          some (.str ((((parseCSVLine line).get? j).map jsTrim).getD ""))
    := by
  rcases hl : csvLines content with _ | ⟨h₀, rest⟩
  · rw [parseCSVToArray, hl] at hrow
    exact absurd hrow (List.not_mem_nil row)
  · have hheaders : csvHeaders content = parseCSVLine h₀ := by
      rw [csvHeaders, hl, List.headD_cons]
    have hnd' : (parseCSVLine h₀).Nodup := hheaders ▸ hnd
    rw [parseCSVToArray, hl] at hrow
    have hrow' : row ∈ rest.map (fun line =>
        buildRow (parseCSVLine h₀) (parseCSVLine line)) := hrow
    obtain ⟨line, hline, hbuild⟩ := List.mem_map.mp hrow'
    subst hbuild
    have hclosed := buildRow_closed (parseCSVLine h₀) (parseCSVLine line)
      hnd'
    have hkeys : (buildRow (parseCSVLine h₀) (parseCSVLine line)).map
        Prod.fst = parseCSVLine h₀ := by
      rw [hclosed, List.map_map]
      have : (Prod.fst ∘ fun p : Nat × String =>
          (p.2, Value.str ((((parseCSVLine line).get? p.1).map
            jsTrim).getD ""))) = Prod.snd := rfl
      rw [this, List.enum_map_snd]
    have hmemtail : line ∈ (h₀ :: rest).tail := hline
    refine ⟨by rw [hkeys, hheaders], line, hmemtail, ?_⟩
    intro j hj
    have hj' : j < (parseCSVLine h₀).length := by
      rw [hheaders] at hj
      exact hj
    refine jsGet_of_get? _ j _ _ (by rw [hkeys]; exact hnd') ?_
    rw [hclosed, List.get?_map, List.get?_enum,
      List.get?_eq_get hj']
    show some ((parseCSVLine h₀).get ⟨j, hj'⟩,
      Value.str ((((parseCSVLine line).get? j).map jsTrim).getD "")) = _
    have hget : (csvHeaders content).get ⟨j, hj⟩ =
        (parseCSVLine h₀).get ⟨j, hj'⟩ := by
      have h₁ := List.get?_eq_get hj
      have h₂ := List.get?_eq_get hj'
      have h₃ : (csvHeaders content).get? j = (parseCSVLine h₀).get? j :=
        by rw [hheaders]
      exact Option.some.inj (h₁.symm.trans (h₃.trans h₂))
    rw [hget]

/-- C10 (witness): on `"a,b\n1"` the single record is
`{a: "1", b: ""}` — the missing `b` field becomes `""` under its header
key. -/
theorem C10_witness :
    ([("a", Value.str "1"), ("b", Value.str "")] : Row).map Prod.fst =
      csvHeaders "a,b\n1" ∧
    ∃ line ∈ (csvLines "a,b\n1").tail,
      ∀ (j : Nat) (hj : j < (csvHeaders "a,b\n1").length),
        jsGet [("a", Value.str "1"), ("b", Value.str "")]
          ((csvHeaders "a,b\n1").get ⟨j, hj⟩) =
          some (.str ((((parseCSVLine line).get? j).map jsTrim).getD ""))
    :=
  C10_parseCSVToArray_keys "a,b\n1"
    [("a", Value.str "1"), ("b", Value.str "")]
    (by with_unfolding_all decide)
    (by with_unfolding_all decide)

end ETL
